import Mathlib

/-!
# Verification of the heap-based adaptable priority queue, graph, and Dijkstra traversal

Shallow embedding of `heapAPQ.py`, `graphs/graph.py`, `graphs/directed.py` and
`graphs/Dijkstra.py` from the `data-structures` repository, together with proofs
of the specification claims about them.

Modelling conventions:
* Python numeric keys/weights are modelled as `Int`; payload values and vertex
  identities as `Nat`.
* A Python list is a Lean `List`; `list.pop()` is `List.dropLast`,
  `list[i] = x` is `List.set`, reading `list[i]` is `List.getD i default`
  (all concrete reads proved or assumed in-bounds match Python's behaviour;
  the two places where the Python code can actually index out of bounds are
  modelled explicitly with an `indexError` result).
* A Python `dict` is an insertion-ordered association list: writing to an
  existing key replaces the value in place, writing a fresh key appends.
* Python exceptions (IndexError / KeyError) are distinct `PyResult`
  constructors, separate from returning the value `None` (`PyResult.none`)
  and from returning a proper value (`PyResult.ok`).
* Python object identity for heap elements is modelled by a fresh `eid` tag
  handed out by the heap; a live handle is the `eid` of an element currently
  in the heap array, and reading the handle's fields reads the fields of the
  array entry carrying that `eid` (for a live handle this is the same object).
-/

/-- Outcome of a Python method call: a returned value, the returned constant
`None`, or an uncaught exception. -/
inductive PyResult (α : Type) where
  | ok : α → PyResult α
  | none : PyResult α
  | indexError : PyResult α
  | keyError : PyResult α
deriving DecidableEq, Repr

/-- `Element` from `heapAPQ.py`: a key, value and index, plus the identity tag
`eid` modelling Python object identity. -/
structure Element where
  key : Int
  value : Nat
  index : Nat
  eid : Nat
deriving DecidableEq, Repr

instance : Inhabited Element := ⟨⟨0, 0, 0, 0⟩⟩

/-- `Heap_APQ` from `heapAPQ.py`: `_body` is the array, `_size` the tracked
element count.  `nextId` is the supply of fresh identity tags (not a Python
field; it models allocation of new `Element` objects). -/
structure Heap_APQ where
  body : List Element
  size : Nat
  nextId : Nat
deriving DecidableEq, Repr

namespace Heap_APQ

/-- The empty APQ produced by `Heap_APQ.__init__`. -/
def empty : Heap_APQ := ⟨[], 0, 0⟩

/-- Key stored at position `i` of the array (in-bounds at every use site). -/
def keyAt (body : List Element) (i : Nat) : Int := (body.getD i default).key

/-- The simultaneous swap `body[i], body[j] = body[j], body[i]` followed by
`body[i]._index = i` and `body[j]._index = j`, as done by both bubbling
loops in `heapAPQ.py`. -/
def swapFix (body : List Element) (i j : Nat) : List Element :=
  let ei := body.getD i default
  let ej := body.getD j default
  (body.set i { ej with index := i }).set j { ei with index := j }

/-- `body[i]._index = n`. -/
def setIndexAt (body : List Element) (i n : Nat) : List Element :=
  body.set i { body.getD i default with index := n }

/-- `Heap_APQ.bubbleup`: bubble up the item currently in position `i`; the
parent of position `i` is `(i - 1) / 2`. -/
def bubbleup (body : List Element) (i : Nat) : List Element :=
  if h : 0 < i then
    if keyAt body i < keyAt body ((i - 1) / 2) then
      bubbleup (swapFix body i ((i - 1) / 2)) ((i - 1) / 2)
    else
      body
  else
    body
termination_by i
decreasing_by
  omega

/-- The child `minc` selected inside `Heap_APQ.bubbledown`: the left child
`i * 2 + 1` unless the right child `i * 2 + 2` exists and is smaller. -/
def minChild (body : List Element) (i last : Nat) : Nat :=
  if last > i * 2 + 1 ∧ keyAt body (i * 2 + 2) < keyAt body (i * 2 + 1) then
    i * 2 + 2
  else
    i * 2 + 1

/-- `Heap_APQ.bubbledown`: bubble down the item currently in position `i`;
`last` is the index of the last live slot. -/
def bubbledown (body : List Element) (i last : Nat) : List Element :=
  if h : last > i * 2 then
    if keyAt body (minChild body i last) < keyAt body i then
      bubbledown (swapFix body i (minChild body i last)) (minChild body i last) last
    else
      body
  else
    body
termination_by last - i
decreasing_by
  unfold minChild
  split <;> omega

/-- `Heap_APQ.add`: append a new element in the last position, bump the size,
bubble it up, and return it (the caller's handle) with the new heap. -/
def add (q : Heap_APQ) (k : Int) (v : Nat) : Element × Heap_APQ :=
  let e : Element := ⟨k, v, q.size, q.nextId⟩
  let body1 := q.body ++ [e]
  (e, ⟨bubbleup body1 q.size, q.size + 1, q.nextId + 1⟩)

/-- `Heap_APQ.min`: read `self._body[0]`.  On an empty queue the Python code
raises `IndexError`, which is the `indexError` outcome here. -/
def min (q : Heap_APQ) : PyResult (Nat × Int) :=
  match q.body with
  | [] => .indexError
  | e :: _ => .ok (e.value, e.key)

/-- `Heap_APQ.remove_min`: returns Python `None` on an empty queue, otherwise
extracts the root, moves the last element into slot 0, pops the array,
fixes the moved element's index and bubbles it down. -/
def remove_min (q : Heap_APQ) : PyResult (Nat × Int) × Heap_APQ :=
  if q.size = 0 then (.none, q)
  else
    let m := q.body.getD 0 default
    let body1 := (q.body.set 0 (q.body.getD (q.size - 1) default)).dropLast
    let size1 := q.size - 1
    if size1 = 0 then (.ok (m.value, m.key), ⟨body1, size1, q.nextId⟩)
    else
      let body2 := setIndexAt body1 0 0
      (.ok (m.value, m.key), ⟨bubbledown body2 0 (size1 - 1), size1, q.nextId⟩)

/-- `Heap_APQ.is_empty`. -/
def is_empty (q : Heap_APQ) : Bool := q.size = 0

/-- `Heap_APQ.length`. -/
def length (q : Heap_APQ) : Nat := q.size

/-- Position of the live element whose identity tag is `t`, if any.  Python
needs no search because the handle is the object itself; the search is only
the embedding's way to read the fields of that same object in the array. -/
def findElemPos (body : List Element) (t : Nat) : Option Nat :=
  match body with
  | [] => Option.none
  | e :: rest => if e.eid = t then some 0 else (findElemPos rest t).map (· + 1)

/-- `Heap_APQ.get_key`: read `element._key` from a live handle. -/
def get_key (q : Heap_APQ) (t : Nat) : Int :=
  match findElemPos q.body t with
  | some pos => (q.body.getD pos default).key
  | .none => 0

/-- `Heap_APQ.update_key`: overwrite the element's key with `newkey`, then
bubble up from its stored index, then bubble down from its (possibly updated)
stored index.  The behaviour on a dead handle is not modelled (the claims
restrict to live handles); here a dead handle leaves the queue unchanged. -/
def update_key (q : Heap_APQ) (t : Nat) (newkey : Int) : Heap_APQ :=
  match findElemPos q.body t with
  | .none => q
  | some pos =>
    let e := q.body.getD pos default
    let body1 := q.body.set pos { e with key := newkey }
    let body2 := bubbleup body1 e.index
    let idx2 :=
      match findElemPos body2 t with
      | some pos2 => (body2.getD pos2 default).index
      | .none => 0
    ⟨bubbledown body2 idx2 (q.size - 1), q.size, q.nextId⟩

/-- `Heap_APQ.remove`: returns Python `None` on an empty queue; otherwise
copies the last element into the removed element's slot, pops the array and
shrinks the size, then (if elements remain) writes the moved element's index
and bubbles it up and down.  When the removed element occupied the last slot
of a queue that stays non-empty, the index write `self._body[index]._index`
is out of bounds and the Python code raises `IndexError`, leaving the already
popped array behind; that is the `indexError` outcome.  A dead handle is not
modelled (claims restrict to live handles) and leaves the queue unchanged. -/
def remove (q : Heap_APQ) (t : Nat) : PyResult (Nat × Int) × Heap_APQ :=
  if q.size = 0 then (.none, q)
  else
    match findElemPos q.body t with
    | .none => (.none, q)
    | some pos =>
      let e := q.body.getD pos default
      let index := e.index
      let body1 := (q.body.set index (q.body.getD (q.size - 1) default)).dropLast
      let size1 := q.size - 1
      if size1 = 0 then (.ok (e.value, e.key), ⟨body1, size1, q.nextId⟩)
      else if index < size1 then
        let body2 := setIndexAt body1 index index
        let body3 := bubbleup body2 index
        (.ok (e.value, e.key), ⟨bubbledown body3 index (size1 - 1), size1, q.nextId⟩)
      else
        (.indexError, ⟨body1, size1, q.nextId⟩)

end Heap_APQ

/-! ## Basic list-access lemmas -/

namespace Heap_APQ

theorem getD_set_eq (l : List Element) (i : Nat) (a : Element) (h : i < l.length) :
    (l.set i a).getD i default = a := by
  show ((l.set i a).get? i).getD default = a
  rw [List.get?_set_eq_of_lt a h]
  rfl

theorem getD_set_ne (l : List Element) (i j : Nat) (a : Element) (h : i ≠ j) :
    (l.set i a).getD j default = l.getD j default := by
  show ((l.set i a).get? j).getD default = (l.get? j).getD default
  rw [List.get?_set_ne a l h]

@[simp] theorem length_swapFix (l : List Element) (i j : Nat) :
    (swapFix l i j).length = l.length := by
  simp [swapFix]

theorem getD_swapFix_left (l : List Element) (i j : Nat) (hi : i < l.length) (hij : i ≠ j) :
    (swapFix l i j).getD i default = { l.getD j default with index := i } := by
  unfold swapFix
  rw [getD_set_ne _ _ _ _ (fun h => hij h.symm), getD_set_eq _ _ _ hi]

theorem getD_swapFix_right (l : List Element) (i j : Nat) (hj : j < l.length) :
    (swapFix l i j).getD j default = { l.getD i default with index := j } := by
  unfold swapFix
  rw [getD_set_eq]
  simpa using hj

theorem getD_swapFix_other (l : List Element) (i j k : Nat) (hki : k ≠ i) (hkj : k ≠ j) :
    (swapFix l i j).getD k default = l.getD k default := by
  unfold swapFix
  rw [getD_set_ne _ _ _ _ (fun h => hkj h.symm), getD_set_ne _ _ _ _ (fun h => hki h.symm)]

theorem keyAt_swapFix_left (l : List Element) (i j : Nat) (hi : i < l.length) (hij : i ≠ j) :
    keyAt (swapFix l i j) i = keyAt l j := by
  unfold keyAt
  rw [getD_swapFix_left l i j hi hij]

theorem keyAt_swapFix_right (l : List Element) (i j : Nat) (hj : j < l.length) :
    keyAt (swapFix l i j) j = keyAt l i := by
  unfold keyAt
  rw [getD_swapFix_right l i j hj]

theorem keyAt_swapFix_other (l : List Element) (i j k : Nat) (hki : k ≠ i) (hkj : k ≠ j) :
    keyAt (swapFix l i j) k = keyAt l k := by
  unfold keyAt
  rw [getD_swapFix_other l i j k hki hkj]

@[simp] theorem getD_setIndexAt_ne (l : List Element) (i n k : Nat) (h : k ≠ i) :
    (setIndexAt l i n).getD k default = l.getD k default := by
  unfold setIndexAt
  rw [getD_set_ne _ _ _ _ (fun h2 => h h2.symm)]

theorem getD_setIndexAt_eq (l : List Element) (i n : Nat) (h : i < l.length) :
    (setIndexAt l i n).getD i default = { l.getD i default with index := n } := by
  unfold setIndexAt
  rw [getD_set_eq _ _ _ h]

@[simp] theorem length_setIndexAt (l : List Element) (i n : Nat) :
    (setIndexAt l i n).length = l.length := by
  simp [setIndexAt]

theorem keyAt_setIndexAt (l : List Element) (i n k : Nat) :
    keyAt (setIndexAt l i n) k = keyAt l k := by
  unfold keyAt
  rcases eq_or_ne k i with rfl | h
  · rcases Nat.lt_or_ge k l.length with h2 | h2
    · rw [getD_setIndexAt_eq _ _ _ h2]
    · unfold setIndexAt
      rw [List.getD_eq_default _ _ (by simpa using h2), List.getD_eq_default _ _ h2]
  · rw [getD_setIndexAt_ne _ _ _ _ h]

/-! ## Length preservation through the bubbling loops -/

@[simp] theorem length_bubbleup (l : List Element) (i : Nat) :
    (bubbleup l i).length = l.length := by
  induction l, i using bubbleup.induct with
  | case1 l i h hlt ih => rw [bubbleup, dif_pos h, if_pos hlt, ih]; simp
  | case2 l i h hlt => rw [bubbleup, dif_pos h, if_neg hlt]
  | case3 l i h => rw [bubbleup, dif_neg h]

@[simp] theorem length_bubbledown (l : List Element) (i last : Nat) :
    (bubbledown l i last).length = l.length := by
  induction l, i, last using bubbledown.induct with
  | case1 l i last h hlt ih => rw [bubbledown, dif_pos h, if_pos hlt, ih]; simp
  | case2 l i last h hlt => rw [bubbledown, dif_pos h, if_neg hlt]
  | case3 l i last h => rw [bubbledown, dif_neg h]

/-! ## The two heap invariants -/

/-- Index invariant: every element's stored `_index` equals its position. -/
def IndexOk (body : List Element) : Prop :=
  ∀ i, i < body.length → (body.getD i default).index = i

/-- Min-heap invariant: every non-root slot's key is at least its parent's. -/
def HeapOk (body : List Element) : Prop :=
  ∀ j, 0 < j → j < body.length → keyAt body ((j - 1) / 2) ≤ keyAt body j

theorem indexOk_swapFix (l : List Element) (i j : Nat) (hi : i < l.length)
    (hj : j < l.length) (h : IndexOk l) : IndexOk (swapFix l i j) := by
  intro k hk
  rw [length_swapFix] at hk
  rcases eq_or_ne k j with rfl | hkj
  · rw [getD_swapFix_right l i k hj]
  · rcases eq_or_ne k i with rfl | hki
    · rw [getD_swapFix_left l k j hi hkj]
    · rw [getD_swapFix_other l i j k hki hkj]
      exact h k hk

theorem indexOk_bubbleup (l : List Element) (i : Nat) (hi : i < l.length)
    (h : IndexOk l) : IndexOk (bubbleup l i) := by
  induction l, i using bubbleup.induct with
  | case1 l i h0 hlt ih =>
    rw [bubbleup, dif_pos h0, if_pos hlt]
    exact ih (by simpa using lt_of_le_of_lt (by omega) hi)
      (indexOk_swapFix l _ _ hi (by omega) h)
  | case2 l i h0 hlt => rw [bubbleup, dif_pos h0, if_neg hlt]; exact h
  | case3 l i h0 => rw [bubbleup, dif_neg h0]; exact h

theorem minChild_le_last (body : List Element) (i last : Nat) (h : last > i * 2) :
    minChild body i last ≤ last := by
  unfold minChild
  split <;> omega

theorem minChild_gt (body : List Element) (i last : Nat) : i < minChild body i last := by
  unfold minChild
  split <;> omega

theorem minChild_parent (body : List Element) (i last : Nat) :
    (minChild body i last - 1) / 2 = i := by
  unfold minChild
  split <;> omega

theorem indexOk_bubbledown (l : List Element) (i last : Nat) (hlast : last < l.length)
    (h : IndexOk l) : IndexOk (bubbledown l i last) := by
  induction l, i, last using bubbledown.induct with
  | case1 l i last h0 hlt ih =>
    rw [bubbledown, dif_pos h0, if_pos hlt]
    have h1 : minChild l i last ≤ last := minChild_le_last l i last h0
    exact ih (by simpa using hlast)
      (indexOk_swapFix l _ _ (by omega) (by omega) h)
  | case2 l i last h0 hlt => rw [bubbledown, dif_pos h0, if_neg hlt]; exact h
  | case3 l i last h0 => rw [bubbledown, dif_neg h0]; exact h

/-! ## Restoring the heap invariant by bubbling -/

/-- Precondition under which `bubbleup` from position `i` restores the heap
invariant: every other position satisfies the parent bound, and the parent of
`i` already bounds the children of `i`. -/
def UpOk (body : List Element) (i : Nat) : Prop :=
  (∀ j, 0 < j → j < body.length → j ≠ i → keyAt body ((j - 1) / 2) ≤ keyAt body j) ∧
  (∀ c, c < body.length → (c - 1) / 2 = i → 0 < i →
    keyAt body ((i - 1) / 2) ≤ keyAt body c)

/-- Precondition under which `bubbledown` from position `i` restores the heap
invariant: every position whose parent is not `i` satisfies the parent bound,
and the parent of `i` already bounds the children of `i`. -/
def DownOk (body : List Element) (i : Nat) : Prop :=
  (∀ j, 0 < j → j < body.length → (j - 1) / 2 ≠ i →
    keyAt body ((j - 1) / 2) ≤ keyAt body j) ∧
  (∀ c, c < body.length → (c - 1) / 2 = i → 0 < i →
    keyAt body ((i - 1) / 2) ≤ keyAt body c)

theorem keyAt_minChild_le (body : List Element) (i last c : Nat) (h0 : last > i * 2)
    (hlen : last + 1 = body.length) (hc0 : 0 < c) (hc : (c - 1) / 2 = i)
    (hcb : c < body.length) :
    keyAt body (minChild body i last) ≤ keyAt body c := by
  have hc2 : c = i * 2 + 1 ∨ c = i * 2 + 2 := by omega
  unfold minChild
  split
  · next hcond =>
    rcases hc2 with rfl | rfl
    · exact le_of_lt hcond.2
    · exact le_refl _
  · next hcond =>
    rcases hc2 with rfl | rfl
    · exact le_refl _
    · have h1 : last > i * 2 + 1 := by omega
      have h2 : ¬ keyAt body (i * 2 + 2) < keyAt body (i * 2 + 1) := fun h2 =>
        hcond ⟨h1, h2⟩
      exact le_of_not_lt h2

theorem bubbleup_heapOk (body : List Element) (i : Nat) (hi : i < body.length)
    (h : UpOk body i) : HeapOk (bubbleup body i) := by
  induction body, i using bubbleup.induct with
  | case1 body i h0 hlt ih =>
    rw [bubbleup, dif_pos h0, if_pos hlt]
    have hp : (i - 1) / 2 < i := by omega
    have hpb : (i - 1) / 2 < body.length := by omega
    have hip : i ≠ (i - 1) / 2 := by omega
    apply ih (by simpa using hpb)
    constructor
    · intro j hj0 hjb hjp
      rw [length_swapFix] at hjb
      rcases eq_or_ne j i with hji | hji
      · subst hji
        rw [keyAt_swapFix_right body j ((j - 1) / 2) hpb,
          keyAt_swapFix_left body j ((j - 1) / 2) hi hip]
        exact le_of_lt hlt
      · rcases eq_or_ne ((j - 1) / 2) i with hpj | hpj
        · have hji2 : i < j := by omega
          rw [hpj, keyAt_swapFix_left body i ((i - 1) / 2) hi hip,
            keyAt_swapFix_other body i ((i - 1) / 2) j hji (by omega)]
          exact h.2 j hjb hpj h0
        · rcases eq_or_ne ((j - 1) / 2) ((i - 1) / 2) with hpj2 | hpj2
          · rw [hpj2, keyAt_swapFix_right body i ((i - 1) / 2) hpb,
              keyAt_swapFix_other body i ((i - 1) / 2) j hji hjp]
            calc keyAt body i ≤ keyAt body ((i - 1) / 2) := le_of_lt hlt
              _ ≤ keyAt body j := by
                  have h1 := h.1 j hj0 hjb hji
                  rw [hpj2] at h1
                  exact h1
          · rw [keyAt_swapFix_other body i ((i - 1) / 2) ((j - 1) / 2) hpj hpj2,
              keyAt_swapFix_other body i ((i - 1) / 2) j hji hjp]
            exact h.1 j hj0 hjb hji
    · intro c hcb hcp hp0
      rw [length_swapFix] at hcb
      rw [keyAt_swapFix_other body i ((i - 1) / 2) (((i - 1) / 2 - 1) / 2)
        (by omega) (by omega)]
      rcases eq_or_ne c i with hci | hci
      · subst hci
        rw [keyAt_swapFix_left body c ((c - 1) / 2) hi hip]
        exact h.1 ((c - 1) / 2) hp0 hpb (by omega)
      · rw [keyAt_swapFix_other body i ((i - 1) / 2) c hci (by omega)]
        calc keyAt body (((i - 1) / 2 - 1) / 2) ≤ keyAt body ((i - 1) / 2) :=
            h.1 ((i - 1) / 2) hp0 hpb (by omega)
          _ ≤ keyAt body c := by
              have h1 := h.1 c (by omega) hcb hci
              rw [hcp] at h1
              exact h1
  | case2 body i h0 hlt =>
    rw [bubbleup, dif_pos h0, if_neg hlt]
    intro j hj0 hjb
    rcases eq_or_ne j i with hji | hji
    · subst hji
      exact le_of_not_lt hlt
    · exact h.1 j hj0 hjb hji
  | case3 body i h0 =>
    rw [bubbleup, dif_neg h0]
    intro j hj0 hjb
    exact h.1 j hj0 hjb (by omega)

theorem bubbledown_heapOk (body : List Element) (i last : Nat)
    (hlen : last + 1 = body.length) (h : DownOk body i) :
    HeapOk (bubbledown body i last) := by
  induction body, i, last using bubbledown.induct with
  | case1 body i last h0 hlt ih =>
    rw [bubbledown, dif_pos h0, if_pos hlt]
    set m := minChild body i last with hm
    have hm1 : i < m := minChild_gt body i last
    have hm2 : m ≤ last := minChild_le_last body i last h0
    have hmp : (m - 1) / 2 = i := minChild_parent body i last
    have hmb : m < body.length := by omega
    have hib : i < body.length := by omega
    have him : i ≠ m := by omega
    apply ih (by simpa using hlen)
    constructor
    · intro j hj0 hjb hjp
      rw [length_swapFix] at hjb
      rcases eq_or_ne j m with hjm | hjm
      · subst hjm
        rw [hmp, keyAt_swapFix_left body i m hib him,
          keyAt_swapFix_right body i m hmb]
        exact le_of_lt hlt
      · rcases eq_or_ne j i with hji | hji
        · subst hji
          rw [keyAt_swapFix_other body j m ((j - 1) / 2) (by omega) (by omega),
            keyAt_swapFix_left body j m hib him]
          exact h.2 m hmb hmp hj0
        · rcases eq_or_ne ((j - 1) / 2) i with hpj | hpj
          · rw [hpj, keyAt_swapFix_left body i m hib him,
              keyAt_swapFix_other body i m j hji hjm]
            exact keyAt_minChild_le body i last j h0 hlen hj0 hpj hjb
          · rw [keyAt_swapFix_other body i m ((j - 1) / 2) hpj hjp,
              keyAt_swapFix_other body i m j hji hjm]
            exact h.1 j hj0 hjb hpj
    · intro c hcb hcp hm0
      rw [length_swapFix] at hcb
      have hc1 : m < c := by omega
      rw [hmp, keyAt_swapFix_left body i m hib him,
        keyAt_swapFix_other body i m c (by omega) (by omega)]
      have h1 := h.1 c (by omega) hcb (by omega)
      rw [hcp] at h1
      exact h1
  | case2 body i last h0 hlt =>
    rw [bubbledown, dif_pos h0, if_neg hlt]
    intro j hj0 hjb
    rcases eq_or_ne ((j - 1) / 2) i with hpj | hpj
    · rw [hpj]
      calc keyAt body i ≤ keyAt body (minChild body i last) := le_of_not_lt hlt
        _ ≤ keyAt body j := keyAt_minChild_le body i last j h0 hlen hj0 hpj hjb
    · exact h.1 j hj0 hjb hpj
  | case3 body i last h0 =>
    rw [bubbledown, dif_neg h0]
    intro j hj0 hjb
    rcases eq_or_ne ((j - 1) / 2) i with hpj | hpj
    · omega
    · exact h.1 j hj0 hjb hpj

/-- On an array already satisfying the heap invariant, `bubbledown` is the
identity from any starting position. -/
theorem bubbledown_eq_of_heapOk (body : List Element) (i last : Nat)
    (hlen : last + 1 = body.length) (h : HeapOk body) :
    bubbledown body i last = body := by
  rw [bubbledown]
  split
  · next h0 =>
    rw [if_neg]
    have hmb : minChild body i last < body.length := by
      have := minChild_le_last body i last h0
      omega
    have h1 := h (minChild body i last) (by have := minChild_gt body i last; omega) hmb
    rw [minChild_parent body i last] at h1
    exact not_lt_of_le h1
  · rfl

/-- `bubbleup` does nothing when at the root or not smaller than the parent. -/
theorem bubbleup_eq_of_not (body : List Element) (i : Nat)
    (h : ¬(0 < i ∧ keyAt body i < keyAt body ((i - 1) / 2))) :
    bubbleup body i = body := by
  rw [bubbleup]
  split
  · next h0 =>
    rw [if_neg (fun h2 => h ⟨h0, h2⟩)]
  · rfl

/-! ## More list plumbing: append, dropLast, set -/

theorem getD_append_sing (l : List Element) (e : Element) :
    (l ++ [e]).getD l.length default = e := by
  have h : (l ++ [e]).get? l.length = some e := by
    rw [List.get?_append_right (le_refl _)]
    simp
  show ((l ++ [e]).get? l.length).getD default = e
  rw [h]
  rfl

theorem getD_append_l (l : List Element) (e : Element) (i : Nat) (h : i < l.length) :
    (l ++ [e]).getD i default = l.getD i default :=
  List.getD_append l [e] default i h

theorem getD_dropLast (l : List Element) (k : Nat) (h : k < l.length - 1) :
    l.dropLast.getD k default = l.getD k default := by
  show (l.dropLast.get? k).getD default = (l.get? k).getD default
  rw [List.dropLast_eq_take, List.get?_take (by omega)]

theorem set_getD_self {α : Type} [Inhabited α] (M : List α) (k : Nat)
    (h : k < M.length) : M.set k (M.getD k default) = M := by
  apply List.ext_get?
  intro n
  rcases eq_or_ne n k with rfl | hn
  · rw [List.get?_set_eq_of_lt _ h, List.getD_eq_get _ _ h, List.get?_eq_get h]
  · rw [List.get?_set_ne _ _ (fun h2 => hn h2.symm)]

theorem dropLast_set (l : List Element) (i : Nat) (x : Element) :
    (l.set i x).dropLast = l.dropLast.set i x := by
  rw [List.dropLast_eq_take, List.dropLast_eq_take, List.length_set, List.set_take]

/-! ## Permutation facts: bubbling only rearranges elements -/

/-- The identity-relevant data of an element: everything except the mutable
stored index (which the heap rewrites at every move). -/
def coreOf (e : Element) : Int × Nat × Nat := (e.key, e.value, e.eid)

theorem cons_set_perm {α : Type} (t : List α) (k : Nat) (x d : α) (hk : k < t.length) :
    List.Perm (t.getD k d :: t.set k x) (x :: t) := by
  induction t generalizing k with
  | nil => simp at hk
  | cons y r ih =>
    cases k with
    | zero => exact List.Perm.swap x y r
    | succ m =>
      have hm : m < r.length := by simpa using hk
      exact ((List.Perm.swap y (r.getD m d) (r.set m x)).trans
        ((ih m hm).cons y)).trans (List.Perm.swap x y r)

theorem set_set_getD_perm_lt {α : Type} (L : List α) (i j : Nat) (d : α) (hij : i < j)
    (hj : j < L.length) :
    List.Perm ((L.set i (L.getD j d)).set j (L.getD i d)) L := by
  induction L generalizing i j with
  | nil => simp at hj
  | cons y r ih =>
    cases i with
    | zero =>
      cases j with
      | zero => omega
      | succ m =>
        have hm : m < r.length := by simpa using hj
        simpa using cons_set_perm r m y d hm
    | succ n =>
      cases j with
      | zero => omega
      | succ m =>
        have hm : m < r.length := by simpa using hj
        simpa using (ih n m (by omega) hm).cons y

theorem set_set_getD_perm {α : Type} (L : List α) (i j : Nat) (d : α) (hij : i ≠ j)
    (hi : i < L.length) (hj : j < L.length) :
    List.Perm ((L.set i (L.getD j d)).set j (L.getD i d)) L := by
  rcases Nat.lt_or_ge i j with h | h
  · exact set_set_getD_perm_lt L i j d h hj
  · rw [List.set_comm _ _ _ (fun h2 => hij h2)]
    exact set_set_getD_perm_lt L j i d (by omega) hi

theorem map_core_swapFix_perm (l : List Element) (i j : Nat) (hij : i ≠ j)
    (hi : i < l.length) (hj : j < l.length) :
    List.Perm ((swapFix l i j).map coreOf) (l.map coreOf) := by
  unfold swapFix
  rw [List.map_set, List.map_set]
  have h1 : coreOf { l.getD j default with index := i } =
      (l.map coreOf).getD j (coreOf default) := by
    rw [List.getD_map]
    rfl
  have h2 : coreOf { l.getD i default with index := j } =
      (l.map coreOf).getD i (coreOf default) := by
    rw [List.getD_map]
    rfl
  rw [h1, h2]
  exact set_set_getD_perm (l.map coreOf) i j (coreOf default) hij
    (by simpa using hi) (by simpa using hj)

theorem map_core_bubbleup_perm (l : List Element) (i : Nat) (hi : i < l.length) :
    List.Perm ((bubbleup l i).map coreOf) (l.map coreOf) := by
  induction l, i using bubbleup.induct with
  | case1 l i h0 hlt ih =>
    rw [bubbleup, dif_pos h0, if_pos hlt]
    exact List.Perm.trans (ih (by simp; omega))
      (map_core_swapFix_perm l i ((i - 1) / 2) (by omega) hi (by omega))
  | case2 l i h0 hlt => rw [bubbleup, dif_pos h0, if_neg hlt]
  | case3 l i h0 => rw [bubbleup, dif_neg h0]

theorem map_core_bubbledown_perm (l : List Element) (i last : Nat)
    (hlast : last < l.length) :
    List.Perm ((bubbledown l i last).map coreOf) (l.map coreOf) := by
  induction l, i, last using bubbledown.induct with
  | case1 l i last h0 hlt ih =>
    rw [bubbledown, dif_pos h0, if_pos hlt]
    have hm2 : minChild l i last ≤ last := minChild_le_last l i last h0
    have hm1 : i < minChild l i last := minChild_gt l i last
    exact List.Perm.trans (ih (by simpa using hlast))
      (map_core_swapFix_perm l i (minChild l i last) (by omega) (by omega) (by omega))
  | case2 l i last h0 hlt => rw [bubbledown, dif_pos h0, if_neg hlt]
  | case3 l i last h0 => rw [bubbledown, dif_neg h0]

theorem map_core_setIndexAt (l : List Element) (i n : Nat) (h : i < l.length) :
    (setIndexAt l i n).map coreOf = l.map coreOf := by
  unfold setIndexAt
  rw [List.map_set]
  have h1 : coreOf { l.getD i default with index := n } =
      (l.map coreOf).getD i (coreOf default) := by
    rw [List.getD_map]
    rfl
  rw [h1]
  exact set_getD_self (M := l.map coreOf) i (by simpa using h)

theorem getD_mem {α : Type} [Inhabited α] (l : List α) (i : Nat) (h : i < l.length) :
    l.getD i default ∈ l := by
  rw [List.getD_eq_get l default h]
  exact l.get_mem i h

theorem map_eid_perm_of_core {a b : List Element}
    (h : List.Perm (a.map coreOf) (b.map coreOf)) :
    List.Perm (a.map (fun e => e.eid)) (b.map (fun e => e.eid)) := by
  have h2 := h.map (fun c : Int × Nat × Nat => c.2.2)
  rw [List.map_map, List.map_map] at h2
  exact h2

theorem map_value_perm_of_core {a b : List Element}
    (h : List.Perm (a.map coreOf) (b.map coreOf)) :
    List.Perm (a.map (fun e => e.value)) (b.map (fun e => e.value)) := by
  have h2 := h.map (fun c : Int × Nat × Nat => c.2.1)
  rw [List.map_map, List.map_map] at h2
  exact h2

theorem nodup_set {α : Type} (M : List α) (k : Nat) (x : α) (h : M.Nodup)
    (hx : x ∉ M) : (M.set k x).Nodup := by
  induction M generalizing k with
  | nil => simp
  | cons y r ih =>
    cases k with
    | zero =>
      rw [List.set_cons_zero, List.nodup_cons]
      exact ⟨fun h2 => hx (List.mem_cons_of_mem y h2), (List.nodup_cons.mp h).2⟩
    | succ m =>
      rw [List.set_cons_succ, List.nodup_cons]
      constructor
      · intro hmem
        rcases List.mem_or_eq_of_mem_set hmem with h2 | h2
        · exact (List.nodup_cons.mp h).1 h2
        · exact hx (h2 ▸ List.mem_cons_self y r)
      · exact ih m (List.nodup_cons.mp h).2 (fun h2 => hx (List.mem_cons_of_mem y h2))

theorem getLast_getD_not_mem_dropLast {α : Type} [Inhabited α] (E : List α)
    (h : E.Nodup) (hn : E ≠ []) : E.getD (E.length - 1) default ∉ E.dropLast := by
  intro hmem
  have hsplit := List.dropLast_concat_getLast hn
  have hget : E.getD (E.length - 1) default = E.getLast hn := by
    rw [List.getLast_eq_get E hn, List.getD_eq_get]
  rw [hget] at hmem
  have h2 : ¬ E.dropLast.Disjoint [E.getLast hn] := by
    intro hd
    exact hd hmem (List.mem_singleton_self _)
  rw [← hsplit] at h
  exact h2 (List.disjoint_of_nodup_append h)

/-! ## Locating a live handle -/

theorem findElemPos_lt (body : List Element) (t pos : Nat)
    (h : findElemPos body t = some pos) : pos < body.length := by
  induction body generalizing pos with
  | nil => simp [findElemPos] at h
  | cons e rest ih =>
    rw [findElemPos] at h
    split at h
    · have hp : pos = 0 := by simpa using h.symm
      subst hp
      simp
    · rcases hf : findElemPos rest t with _ | p
      · rw [hf] at h
        simp at h
      · rw [hf] at h
        simp at h
        have := ih p hf
        simp
        omega

theorem findElemPos_eid (body : List Element) (t pos : Nat)
    (h : findElemPos body t = some pos) : (body.getD pos default).eid = t := by
  induction body generalizing pos with
  | nil => simp [findElemPos] at h
  | cons e rest ih =>
    rw [findElemPos] at h
    split at h
    · next heq =>
      simp at h
      subst h
      exact heq
    · rcases hf : findElemPos rest t with _ | p
      · rw [hf] at h
        simp at h
      · rw [hf] at h
        simp at h
        subst h
        simpa using ih p hf

theorem findElemPos_congr (l1 l2 : List Element) (t : Nat)
    (h : l1.map (fun e => e.eid) = l2.map (fun e => e.eid)) :
    findElemPos l1 t = findElemPos l2 t := by
  induction l1 generalizing l2 with
  | nil =>
    cases l2 with
    | nil => rfl
    | cons f r2 => simp at h
  | cons e r1 ih =>
    cases l2 with
    | nil => simp at h
    | cons f r2 =>
      simp only [List.map_cons, List.cons.injEq] at h
      rw [findElemPos, findElemPos, h.1, ih r2 h.2]

theorem map_eid_set_of_eid (l : List Element) (pos : Nat) (x : Element)
    (h : pos < l.length) (hx : x.eid = (l.getD pos default).eid) :
    (l.set pos x).map (fun e => e.eid) = l.map (fun e => e.eid) := by
  have h1 : (l.set pos x).map (fun e => e.eid) =
      (l.map (fun e => e.eid)).set pos ((l.map (fun e => e.eid)).getD pos default) := by
    rw [List.map_set]
    congr 1
    rw [hx]
    exact (List.getD_map l default (fun e => e.eid)).symm
  rw [h1]
  exact set_getD_self (l.map (fun e => e.eid)) pos (by simpa using h)

theorem map_value_set_of_value (l : List Element) (pos : Nat) (x : Element)
    (h : pos < l.length) (hx : x.value = (l.getD pos default).value) :
    (l.set pos x).map (fun e => e.value) = l.map (fun e => e.value) := by
  have h1 : (l.set pos x).map (fun e => e.value) =
      (l.map (fun e => e.value)).set pos ((l.map (fun e => e.value)).getD pos default) := by
    rw [List.map_set]
    congr 1
    rw [hx]
    exact (List.getD_map l default (fun e => e.value)).symm
  rw [h1]
  exact set_getD_self (l.map (fun e => e.value)) pos (by simpa using h)

/-! ## The combined well-formedness invariant of a heap state -/

/-- Everything that is invariantly true of a reachable `Heap_APQ`: the tracked
size equals the array length, the stored indices match positions, the min-heap
ordering holds, and the identity tags are distinct and below the supply. -/
structure WfHeap (q : Heap_APQ) : Prop where
  hsize : q.size = q.body.length
  hidx : IndexOk q.body
  hheap : HeapOk q.body
  hnodup : (q.body.map (fun e => e.eid)).Nodup
  hbound : ∀ x ∈ q.body.map (fun e => e.eid), x < q.nextId

theorem wf_empty : WfHeap empty := by
  refine ⟨rfl, ?_, ?_, ?_, ?_⟩ <;> simp [empty, IndexOk, HeapOk]

theorem wf_add (q : Heap_APQ) (k : Int) (v : Nat) (h : WfHeap q) :
    WfHeap (q.add k v).2 := by
  obtain ⟨hs, hi, hh, hn, hb⟩ := h
  show WfHeap ⟨bubbleup (q.body ++ [⟨k, v, q.size, q.nextId⟩]) q.size,
    q.size + 1, q.nextId + 1⟩
  have hlen2 : q.size < (q.body ++ [(⟨k, v, q.size, q.nextId⟩ : Element)]).length := by
    simp
    omega
  have hperm := map_eid_perm_of_core
    (map_core_bubbleup_perm (q.body ++ [⟨k, v, q.size, q.nextId⟩]) q.size hlen2)
  have hmap : (q.body ++ [(⟨k, v, q.size, q.nextId⟩ : Element)]).map (fun e => e.eid) =
      q.body.map (fun e => e.eid) ++ [q.nextId] := by
    simp
  constructor
  · show q.size + 1 = (bubbleup _ _).length
    rw [length_bubbleup]
    simp
    omega
  · exact indexOk_bubbleup _ _ hlen2 (by
      intro i hi2
      simp only [List.length_append, List.length_cons, List.length_nil] at hi2
      rcases Nat.lt_or_ge i q.body.length with h2 | h2
      · rw [getD_append_l _ _ _ h2]
        exact hi i h2
      · have h3 : i = q.body.length := by omega
        subst h3
        rw [getD_append_sing]
        exact hs)
  · apply bubbleup_heapOk _ _ hlen2
    constructor
    · intro j hj0 hjb hji
      simp only [List.length_append, List.length_cons, List.length_nil] at hjb
      have hjlt : j < q.body.length := by omega
      unfold keyAt
      rw [getD_append_l _ _ _ hjlt, getD_append_l _ _ _ (by omega)]
      exact hh j hj0 hjlt
    · intro c hcb hcp hp0
      simp only [List.length_append, List.length_cons, List.length_nil] at hcb
      omega
  · rw [hperm.nodup_iff, hmap, List.nodup_append]
    refine ⟨hn, List.nodup_singleton _, ?_⟩
    intro x hx1 hx2
    have hlt := hb x hx1
    simp at hx2
    omega
  · intro x hx
    have hx2 := hperm.mem_iff.mp hx
    rw [hmap] at hx2
    show x < q.nextId + 1
    rcases List.mem_append.mp hx2 with h2 | h2
    · have := hb x h2
      omega
    · simp at h2
      omega

theorem map_eid_eq_of_core_eq {a b : List Element}
    (h : a.map coreOf = b.map coreOf) :
    a.map (fun e => e.eid) = b.map (fun e => e.eid) := by
  have h2 := congrArg (List.map (fun c : Int × Nat × Nat => c.2.2)) h
  rw [List.map_map, List.map_map] at h2
  exact h2

theorem map_value_eq_of_core_eq {a b : List Element}
    (h : a.map coreOf = b.map coreOf) :
    a.map (fun e => e.value) = b.map (fun e => e.value) := by
  have h2 := congrArg (List.map (fun c : Int × Nat × Nat => c.2.1)) h
  rw [List.map_map, List.map_map] at h2
  exact h2

theorem wf_remove_min (q : Heap_APQ) (h : WfHeap q) : WfHeap (q.remove_min).2 := by
  obtain ⟨hs, hi, hh, hn, hb⟩ := h
  by_cases h0 : q.size = 0
  · simp only [remove_min, if_pos h0]
    exact ⟨hs, hi, hh, hn, hb⟩
  · by_cases h1 : q.size - 1 = 0
    · simp only [remove_min, if_neg h0, if_pos h1]
      have hempty : ((q.body.set 0 (q.body.getD (q.size - 1) default)).dropLast) = [] := by
        apply List.length_eq_zero.mp
        simp
        omega
      refine ⟨?_, ?_, ?_, ?_, ?_⟩
      · show q.size - 1 = _
        rw [hempty]
        simpa using h1
      · show IndexOk ((q.body.set 0 (q.body.getD (q.size - 1) default)).dropLast)
        rw [hempty]
        intro i h2
        simp at h2
      · show HeapOk ((q.body.set 0 (q.body.getD (q.size - 1) default)).dropLast)
        rw [hempty]
        intro j hj0 h2
        simp at h2
      · show (((q.body.set 0 (q.body.getD (q.size - 1) default)).dropLast).map
          (fun e => e.eid)).Nodup
        rw [hempty]
        simp
      · show ∀ x ∈ ((q.body.set 0 (q.body.getD (q.size - 1) default)).dropLast).map
          (fun e => e.eid), x < q.nextId
        rw [hempty]
        intro x hx
        simp at hx
    · simp only [remove_min, if_neg h0, if_neg h1]
      rw [dropLast_set]
      have hn2 : 2 ≤ q.body.length := by omega
      have hlen1 : ((q.body.dropLast).set 0 (q.body.getD (q.size - 1) default)).length =
          q.body.length - 1 := by
        simp
      have hlenE : (q.body.map (fun e => e.eid)).length = q.body.length := by simp
      have hlast2 : q.size - 1 - 1 <
          (setIndexAt ((q.body.dropLast).set 0 (q.body.getD (q.size - 1) default)) 0 0).length := by
        rw [length_setIndexAt, hlen1]
        omega
      have hkey1 : ∀ k, k ≠ 0 → k < q.body.length - 1 →
          keyAt (setIndexAt ((q.body.dropLast).set 0 (q.body.getD (q.size - 1) default)) 0 0) k =
            keyAt q.body k := by
        intro k hk0 hkb
        rw [keyAt_setIndexAt]
        unfold keyAt
        rw [getD_set_ne _ 0 k _ (fun h2 => hk0 h2.symm), getD_dropLast _ _ hkb]
      have hkeyat : ∀ k, keyAt (setIndexAt ((q.body.dropLast).set 0
          (q.body.getD (q.size - 1) default)) 0 0) k =
          keyAt ((q.body.dropLast).set 0 (q.body.getD (q.size - 1) default)) k :=
        fun k => keyAt_setIndexAt _ 0 0 k
      have hmap1 : (((q.body.dropLast).set 0 (q.body.getD (q.size - 1) default)).map
          (fun e => e.eid)) =
          ((q.body.map (fun e => e.eid)).dropLast).set 0
            ((q.body.map (fun e => e.eid)).getD (q.size - 1) default) := by
        rw [List.map_set, List.map_dropLast]
        congr 1
        exact (List.getD_map q.body default (fun e => e.eid)).symm
      have hnodup1 : ((((q.body.dropLast).set 0 (q.body.getD (q.size - 1) default)).map
          (fun e => e.eid))).Nodup := by
        rw [hmap1]
        apply nodup_set _ _ _ (hn.sublist (List.dropLast_sublist _))
        have heq : (q.body.map (fun e => e.eid)).getD (q.size - 1) default =
            (q.body.map (fun e => e.eid)).getD
              ((q.body.map (fun e => e.eid)).length - 1) default := by
          rw [hlenE, hs]
        rw [heq]
        exact getLast_getD_not_mem_dropLast _ hn (by
          intro h2
          rw [h2] at hlenE
          simp at hlenE
          omega)
      have hperm2 := map_eid_perm_of_core (map_core_bubbledown_perm
        (setIndexAt ((q.body.dropLast).set 0 (q.body.getD (q.size - 1) default)) 0 0)
        0 (q.size - 1 - 1) hlast2)
      have hcoreSet := map_core_setIndexAt
        ((q.body.dropLast).set 0 (q.body.getD (q.size - 1) default)) 0 0
        (by rw [hlen1]; omega)
      have heidSet := map_eid_eq_of_core_eq hcoreSet
      refine ⟨?_, ?_, ?_, ?_, ?_⟩
      · show q.size - 1 = _
        rw [length_bubbledown, length_setIndexAt, hlen1]
        omega
      · apply indexOk_bubbledown _ _ _ (by rw [length_setIndexAt, hlen1]; omega)
        intro k hk
        rw [length_setIndexAt, hlen1] at hk
        rcases eq_or_ne k 0 with rfl | hk0
        · rw [getD_setIndexAt_eq _ _ _ (by rw [hlen1]; omega)]
        · rw [getD_setIndexAt_ne _ _ _ _ hk0,
            getD_set_ne _ 0 k _ (fun h2 => hk0 h2.symm), getD_dropLast _ _ hk]
          exact hi k (by omega)
      · apply bubbledown_heapOk _ 0 (q.size - 1 - 1)
          (by rw [length_setIndexAt, hlen1]; omega)
        constructor
        · intro j hj0 hjb hjp
          rw [length_setIndexAt, hlen1] at hjb
          have hpj0 : (j - 1) / 2 ≠ 0 := hjp
          rw [hkey1 j (by omega) hjb, hkey1 ((j - 1) / 2) hpj0 (by omega)]
          exact hh j hj0 (by omega)
        · intro c hcb hcp hp0
          omega
      · rw [hperm2.nodup_iff, heidSet]
        exact hnodup1
      · intro x hx
        have hx2 := hperm2.mem_iff.mp hx
        rw [heidSet, hmap1] at hx2
        show x < q.nextId
        rcases List.mem_or_eq_of_mem_set hx2 with h2 | h2
        · exact hb x ((List.dropLast_sublist _).mem h2)
        · subst h2
          exact hb _ (getD_mem _ _ (by rw [hlenE]; omega))

theorem wf_update_key (q : Heap_APQ) (t : Nat) (nk : Int) (h : WfHeap q) :
    WfHeap (q.update_key t nk) := by
  obtain ⟨hs, hi, hh, hn, hb⟩ := h
  rcases hf : findElemPos q.body t with _ | pos
  · simp only [update_key, hf]
    exact ⟨hs, hi, hh, hn, hb⟩
  · have hpos : pos < q.body.length := findElemPos_lt _ _ _ hf
    have hidxe : (q.body.getD pos default).index = pos := hi pos hpos
    have hsz1 : 1 ≤ q.size := by omega
    simp only [update_key, hf, hidxe]
    set body1 := q.body.set pos
      ⟨nk, (q.body.getD pos default).value, pos, (q.body.getD pos default).eid⟩
      with hbody1
    have hlen1 : body1.length = q.body.length := by
      rw [hbody1, List.length_set]
    have hEeq : body1.map (fun e => e.eid) = q.body.map (fun e => e.eid) := by
      rw [hbody1]
      exact map_eid_set_of_eid q.body pos _ hpos rfl
    have hkey1pos : keyAt body1 pos = nk := by
      unfold keyAt
      rw [hbody1, getD_set_eq _ _ _ hpos]
    have hkey1ne : ∀ k, k ≠ pos → keyAt body1 k = keyAt q.body k := by
      intro k hk
      unfold keyAt
      rw [hbody1, getD_set_ne _ pos k _ (fun h2 => hk h2.symm)]
    have hidx1 : IndexOk body1 := by
      intro k hk
      rw [hlen1] at hk
      rcases eq_or_ne k pos with rfl | hkp
      · rw [hbody1, getD_set_eq _ _ _ hpos]
      · rw [hbody1, getD_set_ne _ pos k _ (fun h2 => hkp h2.symm)]
        exact hi k hk
  -- bubbling from pos restores the heap invariant after the key overwrite
    by_cases hcase : 0 < pos ∧ keyAt body1 pos < keyAt body1 ((pos - 1) / 2)
    · have hup : HeapOk (bubbleup body1 pos) := by
        apply bubbleup_heapOk body1 pos (by omega)
        have hnk := hcase.2
        rw [hkey1pos] at hnk
        constructor
        · intro j hj0 hjb hji
          rw [hlen1] at hjb
          rcases eq_or_ne ((j - 1) / 2) pos with hpj | hpj
          · rw [hpj, hkey1pos, hkey1ne j hji]
            have hppos : (pos - 1) / 2 ≠ pos := by omega
            have h4 : nk < keyAt q.body ((pos - 1) / 2) := by
              rw [← hkey1ne _ hppos]
              exact hnk
            have h5 : keyAt q.body ((pos - 1) / 2) ≤ keyAt q.body j := by
              calc keyAt q.body ((pos - 1) / 2) ≤ keyAt q.body pos :=
                  hh pos hcase.1 hpos
                _ ≤ keyAt q.body j := by
                    have h3 := hh j hj0 hjb
                    rw [hpj] at h3
                    exact h3
            exact le_of_lt (lt_of_lt_of_le h4 h5)
          · rw [hkey1ne _ hpj, hkey1ne j hji]
            exact hh j hj0 hjb
        · intro c hcb hcp hp0
          rw [hlen1] at hcb
          have hcpos : c ≠ pos := by omega
          have hppos : (pos - 1) / 2 ≠ pos := by omega
          rw [hkey1ne _ hppos, hkey1ne c hcpos]
          calc keyAt q.body ((pos - 1) / 2) ≤ keyAt q.body pos := hh pos hp0 hpos
            _ ≤ keyAt q.body c := by
                have h3 := hh c (by omega) hcb
                rw [hcp] at h3
                exact h3
      have hlen2 : q.size - 1 + 1 = (bubbleup body1 pos).length := by
        rw [length_bubbleup, hlen1]
        omega
      rw [bubbledown_eq_of_heapOk _ _ _ hlen2 hup]
      have hperm := map_eid_perm_of_core (map_core_bubbleup_perm body1 pos (by omega))
      refine ⟨?_, ?_, ?_, ?_, ?_⟩
      · show q.size = _
        rw [length_bubbleup, hlen1, hs]
      · exact indexOk_bubbleup _ _ (by omega) hidx1
      · exact hup
      · rw [hperm.nodup_iff, hEeq]
        exact hn
      · intro x hx
        have hx2 := hperm.mem_iff.mp hx
        rw [hEeq] at hx2
        exact hb x hx2
    · have hnoup : bubbleup body1 pos = body1 := bubbleup_eq_of_not body1 pos hcase
      rw [hnoup]
      have hf1 : findElemPos body1 t = some pos := by
        rw [findElemPos_congr body1 q.body t hEeq, hf]
      simp only [hf1]
      have hidx2 : (body1.getD pos default).index = pos := hidx1 pos (by omega)
      rw [hidx2]
      have hdown : HeapOk (bubbledown body1 pos (q.size - 1)) := by
        apply bubbledown_heapOk body1 pos (q.size - 1) (by omega)
        constructor
        · intro j hj0 hjb hjp
          rw [hlen1] at hjb
          rcases eq_or_ne j pos with rfl | hjpos
          · rw [hkey1pos, hkey1ne _ hjp]
            have hle : ¬ keyAt body1 j < keyAt body1 ((j - 1) / 2) := fun h2 =>
              hcase ⟨hj0, h2⟩
            rw [hkey1pos, hkey1ne _ hjp] at hle
            exact le_of_not_lt hle
          · rw [hkey1ne _ hjp, hkey1ne j hjpos]
            exact hh j hj0 hjb
        · intro c hcb hcp hp0
          rw [hlen1] at hcb
          have hcpos : c ≠ pos := by omega
          have hppos : (pos - 1) / 2 ≠ pos := by omega
          rw [hkey1ne _ hppos, hkey1ne c hcpos]
          calc keyAt q.body ((pos - 1) / 2) ≤ keyAt q.body pos := hh pos hp0 hpos
            _ ≤ keyAt q.body c := by
                have h3 := hh c (by omega) hcb
                rw [hcp] at h3
                exact h3
      have hperm := map_eid_perm_of_core
        (map_core_bubbledown_perm body1 pos (q.size - 1) (by omega))
      refine ⟨?_, ?_, ?_, ?_, ?_⟩
      · show q.size = _
        rw [length_bubbledown, hlen1, hs]
      · exact indexOk_bubbledown _ _ _ (by omega) hidx1
      · exact hdown
      · rw [hperm.nodup_iff, hEeq]
        exact hn
      · intro x hx
        have hx2 := hperm.mem_iff.mp hx
        rw [hEeq] at hx2
        exact hb x hx2

theorem wf_remove (q : Heap_APQ) (t : Nat) (h : WfHeap q) : WfHeap (q.remove t).2 := by
  obtain ⟨hs, hi, hh, hn, hb⟩ := h
  by_cases h0 : q.size = 0
  · simp only [remove, if_pos h0]
    exact ⟨hs, hi, hh, hn, hb⟩
  · rcases hf : findElemPos q.body t with _ | pos
    · simp only [remove, if_neg h0, hf]
      exact ⟨hs, hi, hh, hn, hb⟩
    · have hpos : pos < q.body.length := findElemPos_lt _ _ _ hf
      have hidxe : (q.body.getD pos default).index = pos := hi pos hpos
      have hEnil : q.body.map (fun e => e.eid) ≠ [] := by
        intro h2
        have h3 : (q.body.map (fun e => e.eid)).length = 0 := by
          rw [h2]
          rfl
        rw [List.length_map] at h3
        omega
      have hEget : (q.body.map (fun e => e.eid)).getD (q.size - 1) default =
          (q.body.map (fun e => e.eid)).getD
            ((q.body.map (fun e => e.eid)).length - 1) default := by
        rw [List.length_map, hs]
      by_cases h1 : q.size - 1 = 0
      · simp only [remove, if_neg h0, hf, hidxe, if_pos h1]
        have hempty : ((q.body.set pos (q.body.getD (q.size - 1) default)).dropLast) = [] := by
          apply List.length_eq_zero.mp
          simp
          omega
        refine ⟨?_, ?_, ?_, ?_, ?_⟩
        · show q.size - 1 = _
          rw [hempty]
          simpa using h1
        · show IndexOk ((q.body.set pos (q.body.getD (q.size - 1) default)).dropLast)
          rw [hempty]
          intro i h2
          simp at h2
        · show HeapOk ((q.body.set pos (q.body.getD (q.size - 1) default)).dropLast)
          rw [hempty]
          intro j hj0 h2
          simp at h2
        · show (((q.body.set pos (q.body.getD (q.size - 1) default)).dropLast).map
            (fun e => e.eid)).Nodup
          rw [hempty]
          simp
        · show ∀ x ∈ ((q.body.set pos (q.body.getD (q.size - 1) default)).dropLast).map
            (fun e => e.eid), x < q.nextId
          rw [hempty]
          intro x hx
          simp at hx
      · by_cases h2 : pos < q.size - 1
        · simp only [remove, if_neg h0, hf, hidxe, if_neg h1, if_pos h2]
          rw [dropLast_set]
          have hlen1 : ((q.body.dropLast).set pos (q.body.getD (q.size - 1) default)).length =
              q.body.length - 1 := by
            simp
          have hlenE : (q.body.map (fun e => e.eid)).length = q.body.length := by simp
          have hkey2pos : keyAt (setIndexAt ((q.body.dropLast).set pos
              (q.body.getD (q.size - 1) default)) pos pos) pos =
              keyAt q.body (q.size - 1) := by
            rw [keyAt_setIndexAt]
            unfold keyAt
            rw [getD_set_eq _ _ _ (by simp; omega)]
          have hkey2ne : ∀ k, k ≠ pos → k < q.body.length - 1 →
              keyAt (setIndexAt ((q.body.dropLast).set pos
                (q.body.getD (q.size - 1) default)) pos pos) k = keyAt q.body k := by
            intro k hk0 hkb
            rw [keyAt_setIndexAt]
            unfold keyAt
            rw [getD_set_ne _ pos k _ (fun h3 => hk0 h3.symm), getD_dropLast _ _ hkb]
          have hidx2 : IndexOk (setIndexAt ((q.body.dropLast).set pos
              (q.body.getD (q.size - 1) default)) pos pos) := by
            intro k hk
            rw [length_setIndexAt, hlen1] at hk
            rcases eq_or_ne k pos with rfl | hk0
            · rw [getD_setIndexAt_eq _ _ _ (by rw [hlen1]; omega)]
            · rw [getD_setIndexAt_ne _ _ _ _ hk0,
                getD_set_ne _ pos k _ (fun h3 => hk0 h3.symm), getD_dropLast _ _ hk]
              exact hi k (by omega)
          have hlen2 : (setIndexAt ((q.body.dropLast).set pos
              (q.body.getD (q.size - 1) default)) pos pos).length = q.body.length - 1 := by
            rw [length_setIndexAt, hlen1]
          have hmap1 : ((setIndexAt ((q.body.dropLast).set pos
              (q.body.getD (q.size - 1) default)) pos pos).map (fun e => e.eid)) =
              ((q.body.map (fun e => e.eid)).dropLast).set pos
                ((q.body.map (fun e => e.eid)).getD (q.size - 1) default) := by
            rw [map_eid_eq_of_core_eq (map_core_setIndexAt _ pos pos (by rw [hlen1]; omega)),
              List.map_set, List.map_dropLast]
            congr 1
            exact (List.getD_map q.body default (fun e => e.eid)).symm
          have hnodup2 : ((setIndexAt ((q.body.dropLast).set pos
              (q.body.getD (q.size - 1) default)) pos pos).map (fun e => e.eid)).Nodup := by
            rw [hmap1]
            apply nodup_set _ _ _ (hn.sublist (List.dropLast_sublist _))
            rw [hEget]
            exact getLast_getD_not_mem_dropLast _ hn hEnil
          have hmem2 : ∀ x ∈ (setIndexAt ((q.body.dropLast).set pos
              (q.body.getD (q.size - 1) default)) pos pos).map (fun e => e.eid),
              x ∈ q.body.map (fun e => e.eid) := by
            intro x hx
            rw [hmap1] at hx
            rcases List.mem_or_eq_of_mem_set hx with h3 | h3
            · exact (List.dropLast_sublist _).mem h3
            · subst h3
              exact getD_mem _ _ (by rw [hlenE]; omega)
          by_cases hcase : 0 < pos ∧ keyAt (setIndexAt ((q.body.dropLast).set pos
              (q.body.getD (q.size - 1) default)) pos pos) pos <
              keyAt (setIndexAt ((q.body.dropLast).set pos
                (q.body.getD (q.size - 1) default)) pos pos) ((pos - 1) / 2)
          · have hnk := hcase.2
            rw [hkey2pos, hkey2ne _ (by omega) (by omega)] at hnk
            have hup : HeapOk (bubbleup (setIndexAt ((q.body.dropLast).set pos
                (q.body.getD (q.size - 1) default)) pos pos) pos) := by
              apply bubbleup_heapOk _ pos (by rw [hlen2]; omega)
              constructor
              · intro j hj0 hjb hji
                rw [hlen2] at hjb
                rcases eq_or_ne ((j - 1) / 2) pos with hpj | hpj
                · rw [hpj, hkey2pos, hkey2ne j hji hjb]
                  have h4 : keyAt q.body ((pos - 1) / 2) ≤ keyAt q.body j := by
                    calc keyAt q.body ((pos - 1) / 2) ≤ keyAt q.body pos :=
                        hh pos hcase.1 hpos
                      _ ≤ keyAt q.body j := by
                          have h3 := hh j hj0 (by omega)
                          rw [hpj] at h3
                          exact h3
                  exact le_of_lt (lt_of_lt_of_le hnk h4)
                · rw [hkey2ne _ hpj (by omega), hkey2ne j hji hjb]
                  exact hh j hj0 (by omega)
              · intro c hcb hcp hp0
                rw [hlen2] at hcb
                rw [hkey2ne _ (by omega) (by omega), hkey2ne c (by omega) hcb]
                calc keyAt q.body ((pos - 1) / 2) ≤ keyAt q.body pos := hh pos hp0 hpos
                  _ ≤ keyAt q.body c := by
                      have h3 := hh c (by omega) (by omega)
                      rw [hcp] at h3
                      exact h3
            have hlen3 : q.size - 1 - 1 + 1 = (bubbleup (setIndexAt
                ((q.body.dropLast).set pos (q.body.getD (q.size - 1) default))
                pos pos) pos).length := by
              rw [length_bubbleup, hlen2]
              omega
            rw [bubbledown_eq_of_heapOk _ _ _ hlen3 hup]
            have hperm := map_eid_perm_of_core (map_core_bubbleup_perm _ pos
              (by rw [hlen2]; omega))
            refine ⟨?_, ?_, ?_, ?_, ?_⟩
            · show q.size - 1 = _
              rw [length_bubbleup, hlen2]
              omega
            · exact indexOk_bubbleup _ _ (by rw [hlen2]; omega) hidx2
            · exact hup
            · rw [hperm.nodup_iff]
              exact hnodup2
            · intro x hx
              exact hb x (hmem2 x (hperm.mem_iff.mp hx))
          · have hnoup := bubbleup_eq_of_not _ pos hcase
            rw [hnoup]
            have hdown : HeapOk (bubbledown (setIndexAt ((q.body.dropLast).set pos
                (q.body.getD (q.size - 1) default)) pos pos) pos (q.size - 1 - 1)) := by
              apply bubbledown_heapOk _ pos _ (by rw [hlen2]; omega)
              constructor
              · intro j hj0 hjb hjp
                rw [hlen2] at hjb
                rcases eq_or_ne j pos with rfl | hjpos
                · rw [hkey2pos, hkey2ne _ hjp (by omega)]
                  have hle : ¬ (keyAt (setIndexAt ((q.body.dropLast).set j
                      (q.body.getD (q.size - 1) default)) j j) j <
                      keyAt (setIndexAt ((q.body.dropLast).set j
                        (q.body.getD (q.size - 1) default)) j j) ((j - 1) / 2)) :=
                    fun h3 => hcase ⟨hj0, h3⟩
                  rw [hkey2pos, hkey2ne _ hjp (by omega)] at hle
                  exact le_of_not_lt hle
                · rw [hkey2ne _ hjp (by omega), hkey2ne j hjpos hjb]
                  exact hh j hj0 (by omega)
              · intro c hcb hcp hp0
                rw [hlen2] at hcb
                rw [hkey2ne _ (by omega) (by omega), hkey2ne c (by omega) hcb]
                calc keyAt q.body ((pos - 1) / 2) ≤ keyAt q.body pos := hh pos hp0 hpos
                  _ ≤ keyAt q.body c := by
                      have h3 := hh c (by omega) (by omega)
                      rw [hcp] at h3
                      exact h3
            have hperm := map_eid_perm_of_core (map_core_bubbledown_perm _ pos
              (q.size - 1 - 1) (by rw [hlen2]; omega))
            refine ⟨?_, ?_, ?_, ?_, ?_⟩
            · show q.size - 1 = _
              rw [length_bubbledown, hlen2]
              omega
            · exact indexOk_bubbledown _ _ _ (by rw [hlen2]; omega) hidx2
            · exact hdown
            · rw [hperm.nodup_iff]
              exact hnodup2
            · intro x hx
              exact hb x (hmem2 x (hperm.mem_iff.mp hx))
        · simp only [remove, if_neg h0, hf, hidxe, if_neg h1, if_neg h2]
          rw [dropLast_set, List.set_eq_of_length_le (by simp; omega)]
          refine ⟨?_, ?_, ?_, ?_, ?_⟩
          · show q.size - 1 = _
            simp
            omega
          · intro k hk
            simp only [List.length_dropLast] at hk
            rw [getD_dropLast _ _ hk]
            exact hi k (by omega)
          · intro j hj0 hjb
            simp only [List.length_dropLast] at hjb
            unfold keyAt
            rw [getD_dropLast _ _ hjb, getD_dropLast _ _ (by omega)]
            exact hh j hj0 (by omega)
          · show ((q.body.dropLast).map (fun e => e.eid)).Nodup
            rw [List.map_dropLast]
            exact hn.sublist (List.dropLast_sublist _)
          · show ∀ x ∈ (q.body.dropLast).map (fun e => e.eid), x < q.nextId
            intro x hx
            rw [List.map_dropLast] at hx
            exact hb x ((List.dropLast_sublist _).mem hx)

/-! ## Sequences of APQ operations -/

/-- One mutating call on the APQ, as quantified over by the claims. -/
inductive Op where
  | add (k : Int) (v : Nat)
  | remove_min
  | update_key (t : Nat) (nk : Int)
  | remove (t : Nat)
deriving DecidableEq, Repr

/-- Apply one operation (discarding the returned value). -/
def applyOp (q : Heap_APQ) : Op → Heap_APQ
  | .add k v => (q.add k v).2
  | .remove_min => (q.remove_min).2
  | .update_key t nk => q.update_key t nk
  | .remove t => (q.remove t).2

/-- Argument validity in the sense of the claims: removals need a non-empty
queue, handle-based calls need a live handle. -/
def validOp (q : Heap_APQ) : Op → Bool
  | .add _ _ => true
  | .remove_min => q.size ≠ 0
  | .update_key t _ => (findElemPos q.body t).isSome
  | .remove t => q.size ≠ 0 && (findElemPos q.body t).isSome

/-- Every operation of the sequence has valid arguments in the state where it
is applied. -/
def validOps (q : Heap_APQ) : List Op → Bool
  | [] => true
  | op :: rest => validOp q op && validOps (applyOp q op) rest

/-- The heap state after running a sequence of operations on a fresh APQ. -/
def runOps (ops : List Op) : Heap_APQ := ops.foldl applyOp empty

theorem wf_applyOp (q : Heap_APQ) (op : Op) (h : WfHeap q) : WfHeap (applyOp q op) := by
  cases op with
  | add k v => exact wf_add q k v h
  | remove_min => exact wf_remove_min q h
  | update_key t nk => exact wf_update_key q t nk h
  | remove t => exact wf_remove q t h

theorem wf_foldl (ops : List Op) (q : Heap_APQ) (h : WfHeap q) :
    WfHeap (ops.foldl applyOp q) := by
  induction ops generalizing q with
  | nil => exact h
  | cons op rest ih => exact ih (applyOp q op) (wf_applyOp q op h)

theorem wf_runOps (ops : List Op) : WfHeap (runOps ops) :=
  wf_foldl ops empty wf_empty

end Heap_APQ

open Heap_APQ in
/-- C2: after every finite sequence of `add`, `remove_min`, `update_key` and
`remove` operations on a `Heap_APQ`, each applied with valid arguments
(non-empty queue for removals, a live handle for `update_key` and `remove`),
every live element's stored `_index` field equals its actual position in the
internal array. -/
theorem C2_index_invariant (ops : List Op) (hv : validOps empty ops = true) :
    IndexOk (runOps ops).body :=
  (wf_runOps ops).hidx

open Heap_APQ in
theorem C2_index_invariant_witness :
    validOps empty [Op.add 5 50, Op.add 3 30, Op.add 8 80, Op.update_key 0 1,
      Op.remove_min, Op.remove 2, Op.add 4 40] = true ∧
    IndexOk (runOps [Op.add 5 50, Op.add 3 30, Op.add 8 80, Op.update_key 0 1,
      Op.remove_min, Op.remove 2, Op.add 4 40]).body :=
  ⟨by simp [validOps, validOp, applyOp, runOps, Heap_APQ.empty, Heap_APQ.add,
      Heap_APQ.remove_min, Heap_APQ.update_key, Heap_APQ.remove, bubbleup, bubbledown,
      swapFix, setIndexAt, keyAt, findElemPos, minChild],
    C2_index_invariant _ (by simp [validOps, validOp, applyOp, runOps, Heap_APQ.empty, Heap_APQ.add,
      Heap_APQ.remove_min, Heap_APQ.update_key, Heap_APQ.remove, bubbleup, bubbledown,
      swapFix, setIndexAt, keyAt, findElemPos, minChild])⟩

open Heap_APQ in
/-- C3: after every finite sequence of `add`, `remove_min`, `update_key` and
`remove` operations on a `Heap_APQ`, each applied with valid arguments, the
min-heap property holds: for every element at array index `i > 0`, the key at
the parent index `(i - 1) / 2` is at most the key at index `i`. -/
theorem C3_heap_invariant (ops : List Op) (hv : validOps empty ops = true) :
    HeapOk (runOps ops).body :=
  (wf_runOps ops).hheap

open Heap_APQ in
theorem C3_heap_invariant_witness :
    validOps empty [Op.add 7 70, Op.add 2 20, Op.add 9 90, Op.add 1 10,
      Op.update_key 2 0, Op.remove_min, Op.remove 3] = true ∧
    HeapOk (runOps [Op.add 7 70, Op.add 2 20, Op.add 9 90, Op.add 1 10,
      Op.update_key 2 0, Op.remove_min, Op.remove 3]).body :=
  ⟨by simp [validOps, validOp, applyOp, runOps, Heap_APQ.empty, Heap_APQ.add,
      Heap_APQ.remove_min, Heap_APQ.update_key, Heap_APQ.remove, bubbleup, bubbledown,
      swapFix, setIndexAt, keyAt, findElemPos, minChild],
    C3_heap_invariant _ (by simp [validOps, validOp, applyOp, runOps, Heap_APQ.empty, Heap_APQ.add,
      Heap_APQ.remove_min, Heap_APQ.update_key, Heap_APQ.remove, bubbleup, bubbledown,
      swapFix, setIndexAt, keyAt, findElemPos, minChild])⟩

open Heap_APQ in
/-- C4 counterexample: the claim says that on an empty `Heap_APQ` both `min`
and `remove_min` signal emptiness through a returned value and do not abort
fatally.  In the code `min` reads `self._body[0]` without a size check, so on
the empty queue it raises `IndexError` (a fatal abort, modelled as
`PyResult.indexError`, distinct from every returned value) instead of
returning a signal. -/
theorem C4_counterexample : Heap_APQ.min Heap_APQ.empty = PyResult.indexError := rfl

open Heap_APQ in
/-- C4 (amended): on a `Heap_APQ` of size 0, `remove_min` signals emptiness by
returning `None`, distinct from any valid `(value, key)` result, and leaves
the queue unchanged and usable; `min`, however, performs no emptiness check
and raises `IndexError` on the empty queue (without mutating it). -/
theorem C4_empty_behaviour (q : Heap_APQ) (h : q.size = 0) (h2 : q.body = []) :
    q.remove_min = (PyResult.none, q) ∧ Heap_APQ.min q = PyResult.indexError := by
  constructor
  · simp [remove_min, h]
  · rw [Heap_APQ.min, h2]

open Heap_APQ in
theorem C4_empty_behaviour_witness :
    Heap_APQ.empty.size = 0 ∧ Heap_APQ.empty.body = [] ∧
    (Heap_APQ.empty.remove_min = (PyResult.none, Heap_APQ.empty) ∧
      Heap_APQ.min Heap_APQ.empty = PyResult.indexError) :=
  ⟨rfl, rfl, C4_empty_behaviour Heap_APQ.empty rfl rfl⟩

open Heap_APQ in
/-- The two-element queue built by `add(1, 10); add(2, 20)`: the element with
identity tag 1 (key 2, value 20) occupies the last array slot. -/
def c5heap : Heap_APQ := ((Heap_APQ.empty.add 1 10).2.add 2 20).2

open Heap_APQ in
/-- C5: the claim says `remove(handle)` works for every live handle of a
non-empty queue, including the element in the last array slot.  On the
two-element queue `[1, 2]`, removing the live handle of the last element
(identity tag 1, key 2) makes the Python code execute
`self._body[index]._index = index` with `index` equal to the popped list's
new length, which raises `IndexError` instead of returning `(20, 2)`: the
claim describes the intended contract (the method's own docstring promises
removal and rebalancing for any element) and the code is wrong. -/
theorem C5_remove_last_crashes :
    c5heap.size = 2 ∧ (findElemPos c5heap.body 1).isSome = true ∧
    (c5heap.remove 1).1 = PyResult.indexError := by
  refine ⟨?_, ?_, ?_⟩ <;>
    simp [c5heap, Heap_APQ.empty, Heap_APQ.add, Heap_APQ.remove, bubbleup, bubbledown,
      swapFix, setIndexAt, keyAt, findElemPos, minChild]

/-! ## Graphs: `graphs/graph.py` and `graphs/directed.py`

Vertices are created by `add_vertex` and compared by Python object identity;
the embedding identifies each vertex by its creation index (`nextV` counter).
Vertex labels (`_element`) influence no claim and are not modelled.  The
adjacency maps are Python dicts: insertion-ordered association lists where
writing an existing key replaces its value in place. -/

namespace Graphs

/-- An `Edge`: an ordered pair of vertex identities and a numeric element
(the weight).  `startV`/`endV` are the Python `start()`/`end()` vertices. -/
structure Edge where
  startV : Nat
  endV : Nat
  element : Int
deriving DecidableEq, Repr

/-- `Edge.opposite`: the endpoint of the edge other than `v`, or `None`. -/
def Edge.opposite (e : Edge) (v : Nat) : Option Nat :=
  if e.startV = v then some e.endV
  else if e.endV = v then some e.startV
  else Option.none

/-- Lookup in a Python dict modelled as an association list. -/
def lookupKey {α : Type} : List (Nat × α) → Nat → Option α
  | [], _ => Option.none
  | (k, v) :: rest, t => if k = t then some v else lookupKey rest t

/-- `d[t] = x` on a Python dict: replace in place if the key exists,
append otherwise. -/
def setKey {α : Type} : List (Nat × α) → Nat → α → List (Nat × α)
  | [], t, x => [(t, x)]
  | (k, v) :: rest, t, x => if k = t then (t, x) :: rest else (k, v) :: setKey rest t x

/-- `del d[t]` on a Python dict (the key is present at every use site). -/
def removeKey {α : Type} : List (Nat × α) → Nat → List (Nat × α)
  | [], _ => []
  | (k, v) :: rest, t => if k = t then rest else (k, v) :: removeKey rest t

/-- The undirected `Graph` of `graphs/graph.py`: `_structure` maps each vertex
to the dict from neighbour vertex to connecting edge.  `nextV` is the supply
of fresh vertex identities (modelling allocation of `Vertex` objects). -/
structure Graph where
  structure_ : List (Nat × List (Nat × Edge))
  nextV : Nat
deriving DecidableEq, Repr

namespace Graph

/-- The empty graph of `Graph.__init__`. -/
def empty : Graph := ⟨[], 0⟩

/-- `Graph.num_vertices`. -/
def num_vertices (g : Graph) : Nat := g.structure_.length

/-- `Graph.num_edges`: half the sum of the adjacency-dict sizes. -/
def num_edges (g : Graph) : Nat :=
  (g.structure_.map (fun p => p.2.length)).sum / 2

/-- The membership test `v in self._structure`. -/
def isMember (g : Graph) (v : Nat) : Bool := (lookupKey g.structure_ v).isSome

/-- `Graph.get_edges`: the list of edges incident on `v`, or Python `None`
when `v` is not in the graph. -/
def get_edges (g : Graph) (v : Nat) : Option (List Edge) :=
  match lookupKey g.structure_ v with
  | some adj => some (adj.map (fun p => p.2))
  | Option.none => Option.none

/-- `Graph.get_edge`: the edge between `v` and `w`, or `None`. -/
def get_edge (g : Graph) (v w : Nat) : Option Edge :=
  match lookupKey g.structure_ v with
  | some adj => lookupKey adj w
  | Option.none => Option.none

/-- `Graph.degree`: `len(self._structure[v])`.  For a vertex not in the graph
the Python subscript raises `KeyError` (no membership check is made). -/
def degree (g : Graph) (v : Nat) : PyResult Nat :=
  match lookupKey g.structure_ v with
  | some adj => .ok adj.length
  | Option.none => .keyError

/-- `Graph.add_vertex`: always creates a fresh vertex and returns it. -/
def add_vertex (g : Graph) : Nat × Graph :=
  (g.nextV, ⟨g.structure_ ++ [(g.nextV, [])], g.nextV + 1⟩)

/-- `Graph.add_edge`: `None` if either endpoint is not in the graph, else
store the new edge under both endpoints (replacing any previous edge between
them) and return it. -/
def add_edge (g : Graph) (v w : Nat) (element : Int) : Option Edge × Graph :=
  if (lookupKey g.structure_ v).isNone || (lookupKey g.structure_ w).isNone then
    (Option.none, g)
  else
    let e : Edge := ⟨v, w, element⟩
    let s1 := setKey g.structure_ v (setKey ((lookupKey g.structure_ v).getD []) w e)
    let s2 := setKey s1 w (setKey ((lookupKey s1 w).getD []) v e)
    (some e, ⟨s2, g.nextV⟩)

end Graph

/-- The `DirectedGraph` of `graphs/directed.py`: separate out-edge
(`_structure`) and in-edge (`_inedges`) adjacency maps. -/
structure DirectedGraph where
  structure_ : List (Nat × List (Nat × Edge))
  inedges : List (Nat × List (Nat × Edge))
  nextV : Nat
deriving DecidableEq, Repr

namespace DirectedGraph

/-- The empty directed graph of `DirectedGraph.__init__`. -/
def empty : DirectedGraph := ⟨[], [], 0⟩

/-- The membership test `v in self._structure`. -/
def isMember (g : DirectedGraph) (v : Nat) : Bool := (lookupKey g.structure_ v).isSome

/-- `DirectedGraph.add_vertex`. -/
def add_vertex (g : DirectedGraph) : Nat × DirectedGraph :=
  (g.nextV, ⟨g.structure_ ++ [(g.nextV, [])], g.inedges ++ [(g.nextV, [])], g.nextV + 1⟩)

/-- `DirectedGraph.add_edge`: `None` if either endpoint is not in the graph,
else store the new edge in the out-map of `v` and the in-map of `w` and
return it. -/
def add_edge (g : DirectedGraph) (v w : Nat) (element : Int) :
    Option Edge × DirectedGraph :=
  if (lookupKey g.structure_ v).isNone || (lookupKey g.structure_ w).isNone then
    (Option.none, g)
  else
    let e : Edge := ⟨v, w, element⟩
    let s1 := setKey g.structure_ v (setKey ((lookupKey g.structure_ v).getD []) w e)
    let i1 := setKey g.inedges w (setKey ((lookupKey g.inedges w).getD []) v e)
    (some e, ⟨s1, i1, g.nextV⟩)

end DirectedGraph

/-! ## Association-list lemmas for the dict model -/

theorem lookup_setKey_eq {α : Type} (m : List (Nat × α)) (k : Nat) (x : α) :
    lookupKey (setKey m k x) k = some x := by
  induction m with
  | nil => simp [setKey, lookupKey]
  | cons p rest ih =>
    obtain ⟨k2, v2⟩ := p
    rw [setKey]
    rcases eq_or_ne k2 k with rfl | hne
    · rw [if_pos rfl, lookupKey, if_pos rfl]
    · rw [if_neg hne, lookupKey, if_neg hne]
      exact ih

theorem lookup_setKey_ne {α : Type} (m : List (Nat × α)) (k t : Nat) (x : α)
    (h : t ≠ k) : lookupKey (setKey m k x) t = lookupKey m t := by
  induction m with
  | nil =>
    rw [setKey, lookupKey, lookupKey, if_neg (fun h2 => h h2.symm), lookupKey]
  | cons p rest ih =>
    obtain ⟨k2, v2⟩ := p
    rw [setKey]
    rcases eq_or_ne k2 k with rfl | hne
    · rw [if_pos rfl, lookupKey, lookupKey, if_neg (fun h2 => h h2.symm)]
      rw [if_neg (fun h2 => h h2.symm)]
    · rw [if_neg hne, lookupKey, lookupKey]
      rcases eq_or_ne k2 t with rfl | hne2
      · rw [if_pos rfl, if_pos rfl]
      · rw [if_neg hne2, if_neg hne2]
        exact ih

theorem length_setKey_replace {α : Type} (m : List (Nat × α)) (k : Nat) (x a : α)
    (h : lookupKey m k = some a) : (setKey m k x).length = m.length := by
  induction m with
  | nil => simp [lookupKey] at h
  | cons p rest ih =>
    obtain ⟨k2, v2⟩ := p
    rw [lookupKey] at h
    rw [setKey]
    rcases eq_or_ne k2 k with rfl | hne
    · rw [if_pos rfl]
      rfl
    · rw [if_neg hne]
      rw [if_neg hne] at h
      simp only [List.length_cons]
      rw [ih h]

theorem lenmap_setKey_replace (m : List (Nat × List (Nat × Edge))) (k : Nat)
    (x a : List (Nat × Edge)) (h : lookupKey m k = some a) (hlen : x.length = a.length) :
    (setKey m k x).map (fun p => p.2.length) = m.map (fun p => p.2.length) := by
  induction m with
  | nil => simp [lookupKey] at h
  | cons p rest ih =>
    obtain ⟨k2, v2⟩ := p
    rw [lookupKey] at h
    rw [setKey]
    rcases eq_or_ne k2 k with rfl | hne
    · rw [if_pos rfl] at h ⊢
      simp only [List.map_cons]
      have : a = v2 := by
        have h2 := h
        injection h2 with h3
        exact h3.symm
      rw [this] at hlen
      rw [hlen]
    · rw [if_neg hne] at h ⊢
      simp only [List.map_cons]
      rw [ih h]

theorem isSome_setKey {α : Type} (m : List (Nat × α)) (k t : Nat) (x : α)
    (h : (lookupKey m t).isSome) : (lookupKey (setKey m k x) t).isSome := by
  rcases eq_or_ne t k with rfl | hne
  · rw [lookup_setKey_eq]
    rfl
  · rw [lookup_setKey_ne m k t x hne]
    exact h

end Graphs

namespace Graphs

theorem add_edge_lookup_both (g : Graph) (v w : Nat) (elt : Int)
    (hv : g.isMember v = true) (hw : g.isMember w = true) :
    ∃ L M, lookupKey (g.add_edge v w elt).2.structure_ v = some L ∧
      lookupKey L w = some ⟨v, w, elt⟩ ∧
      lookupKey (g.add_edge v w elt).2.structure_ w = some M ∧
      lookupKey M v = some ⟨v, w, elt⟩ := by
  obtain ⟨L0, hL0⟩ := Option.isSome_iff_exists.mp hv
  obtain ⟨M0, hM0⟩ := Option.isSome_iff_exists.mp hw
  rcases eq_or_ne v w with rfl | hvw
  · have hs1 : lookupKey (setKey g.structure_ v (setKey L0 v ⟨v, v, elt⟩)) v =
        some (setKey L0 v ⟨v, v, elt⟩) := lookup_setKey_eq _ _ _
    have hs2 : (g.add_edge v v elt).2.structure_ =
        setKey (setKey g.structure_ v (setKey L0 v ⟨v, v, elt⟩)) v
          (setKey (setKey L0 v ⟨v, v, elt⟩) v ⟨v, v, elt⟩) := by
      simp [Graph.add_edge, hL0, hs1]
    refine ⟨setKey (setKey L0 v ⟨v, v, elt⟩) v ⟨v, v, elt⟩,
      setKey (setKey L0 v ⟨v, v, elt⟩) v ⟨v, v, elt⟩, ?_, ?_, ?_, ?_⟩
    · rw [hs2, lookup_setKey_eq]
    · rw [lookup_setKey_eq]
    · rw [hs2, lookup_setKey_eq]
    · rw [lookup_setKey_eq]
  · have h1 : lookupKey (setKey g.structure_ v (setKey L0 w ⟨v, w, elt⟩)) w = some M0 :=
      (lookup_setKey_ne _ _ _ _ (fun h2 => hvw h2.symm)).trans hM0
    have hs2 : (g.add_edge v w elt).2.structure_ =
        setKey (setKey g.structure_ v (setKey L0 w ⟨v, w, elt⟩)) w
          (setKey M0 v ⟨v, w, elt⟩) := by
      simp [Graph.add_edge, hL0, hM0, h1]
    refine ⟨setKey L0 w ⟨v, w, elt⟩, setKey M0 v ⟨v, w, elt⟩, ?_, ?_, ?_, ?_⟩
    · rw [hs2, lookup_setKey_ne _ _ _ _ hvw, lookup_setKey_eq]
    · rw [lookup_setKey_eq]
    · rw [hs2, lookup_setKey_eq]
    · rw [lookup_setKey_eq]

theorem add_edge_lenmap_preserved (g : Graph) (v w : Nat) (elt : Int)
    (L M : List (Nat × Edge)) (eL eM : Edge)
    (hv : lookupKey g.structure_ v = some L) (hw : lookupKey g.structure_ w = some M)
    (hL : lookupKey L w = some eL) (hM : lookupKey M v = some eM) :
    ((g.add_edge v w elt).2.structure_).map (fun p => p.2.length) =
      g.structure_.map (fun p => p.2.length) := by
  rcases eq_or_ne v w with rfl | hvw
  · have hs1 : lookupKey (setKey g.structure_ v (setKey L v ⟨v, v, elt⟩)) v =
        some (setKey L v ⟨v, v, elt⟩) := lookup_setKey_eq _ _ _
    have hs2 : (g.add_edge v v elt).2.structure_ =
        setKey (setKey g.structure_ v (setKey L v ⟨v, v, elt⟩)) v
          (setKey (setKey L v ⟨v, v, elt⟩) v ⟨v, v, elt⟩) := by
      simp [Graph.add_edge, hv, hs1]
    have hLM : L = M := by
      have h3 := hv.symm.trans hw
      injection h3
    rw [hs2]
    rw [lenmap_setKey_replace _ v _ (setKey L v ⟨v, v, elt⟩) hs1
        (length_setKey_replace _ v _ _ (lookup_setKey_eq _ _ _))]
    refine lenmap_setKey_replace _ v _ L hv (length_setKey_replace _ v _ eM ?_)
    rw [hLM]
    exact hM
  · have h1 : lookupKey (setKey g.structure_ v (setKey L w ⟨v, w, elt⟩)) w = some M :=
      (lookup_setKey_ne _ _ _ _ (fun h2 => hvw h2.symm)).trans hw
    have hs2 : (g.add_edge v w elt).2.structure_ =
        setKey (setKey g.structure_ v (setKey L w ⟨v, w, elt⟩)) w
          (setKey M v ⟨v, w, elt⟩) := by
      simp [Graph.add_edge, hv, hw, h1]
    rw [hs2]
    rw [lenmap_setKey_replace _ w _ M h1 (length_setKey_replace _ v _ _ hM)]
    exact lenmap_setKey_replace _ v _ L hv (length_setKey_replace _ w _ _ hL)

end Graphs

/-- A one-vertex graph (vertex 0); vertex 1 is not a member. -/
def c6graph : Graphs.Graph := (Graphs.Graph.empty.add_vertex).2

open Graphs in
/-- C6 counterexample: the claim says that for a vertex not in the graph both
`get_edges(v)` and `degree(v)` return a distinguishing not-found signal and
never abort fatally.  `get_edges` does return `None`, but `degree` evaluates
`len(self._structure[v])` with no membership check, so on an absent vertex the
Python subscript raises `KeyError` — a fatal abort, not a returned signal. -/
theorem C6_counterexample :
    c6graph.isMember 1 = false ∧ c6graph.degree 1 = PyResult.keyError := by decide

open Graphs in
/-- C6 (amended): for every graph and every vertex `v` not a member of the
graph, `get_edges(v)` returns `None` — a signal distinct from the empty edge
list of a member vertex with no edges — while `degree(v)` raises `KeyError`
rather than returning a not-found signal. -/
theorem C6_absent_vertex (g : Graph) (v : Nat) (h : g.isMember v = false) :
    g.get_edges v = Option.none ∧ g.degree v = PyResult.keyError := by
  rcases hl : lookupKey g.structure_ v with _ | a
  · constructor
    · simp [Graph.get_edges, hl]
    · simp [Graph.degree, hl]
  · exfalso
    simp [Graph.isMember, hl] at h

open Graphs in
theorem C6_absent_vertex_witness :
    c6graph.isMember 1 = false ∧
    (c6graph.get_edges 1 = Option.none ∧ c6graph.degree 1 = PyResult.keyError) :=
  ⟨by decide, C6_absent_vertex c6graph 1 (by decide)⟩

open Graphs in
/-- C7: `add_edge(v, w, weight)` with at least one endpoint not a member
returns `None` and leaves the graph completely unmodified, for both the
undirected `Graph` and the `DirectedGraph`; with both endpoints members it
returns the new edge and stores it under both endpoints (both adjacency
entries for the undirected graph; the out-map of `v` and the in-map of `w`
for the directed graph), replacing any previous edge. -/
theorem C7_add_edge_endpoints (g : Graph) (dg : DirectedGraph) (v w : Nat)
    (elt : Int) :
    (¬(g.isMember v = true ∧ g.isMember w = true) →
      g.add_edge v w elt = (Option.none, g)) ∧
    (g.isMember v = true → g.isMember w = true →
      (g.add_edge v w elt).1 = some ⟨v, w, elt⟩ ∧
      (g.add_edge v w elt).2.get_edge v w = some ⟨v, w, elt⟩ ∧
      (g.add_edge v w elt).2.get_edge w v = some ⟨v, w, elt⟩) ∧
    (¬(dg.isMember v = true ∧ dg.isMember w = true) →
      dg.add_edge v w elt = (Option.none, dg)) ∧
    (dg.isMember v = true → dg.isMember w = true →
      (dg.add_edge v w elt).1 = some ⟨v, w, elt⟩ ∧
      lookupKey ((lookupKey (dg.add_edge v w elt).2.structure_ v).getD []) w =
        some ⟨v, w, elt⟩ ∧
      lookupKey ((lookupKey (dg.add_edge v w elt).2.inedges w).getD []) v =
        some ⟨v, w, elt⟩) := by
  refine ⟨?_, ?_, ?_, ?_⟩
  · intro h
    have hc : ((lookupKey g.structure_ v).isNone ||
        (lookupKey g.structure_ w).isNone) = true := by
      rcases hbv : lookupKey g.structure_ v with _ | L0
      · simp
      · rcases hbw : lookupKey g.structure_ w with _ | M0
        · simp
        · exact absurd ⟨by simp [Graph.isMember, hbv],
            by simp [Graph.isMember, hbw]⟩ h
    rw [Graph.add_edge, if_pos hc]
  · intro hv hw
    obtain ⟨L, M, h1, h2, h3, h4⟩ := add_edge_lookup_both g v w elt hv hw
    refine ⟨?_, ?_, ?_⟩
    · obtain ⟨L0, hL0⟩ := Option.isSome_iff_exists.mp hv
      obtain ⟨M0, hM0⟩ := Option.isSome_iff_exists.mp hw
      simp [Graph.add_edge, hL0, hM0]
    · simp [Graph.get_edge, h1, h2]
    · simp [Graph.get_edge, h3, h4]
  · intro h
    have hc : ((lookupKey dg.structure_ v).isNone ||
        (lookupKey dg.structure_ w).isNone) = true := by
      rcases hbv : lookupKey dg.structure_ v with _ | L0
      · simp
      · rcases hbw : lookupKey dg.structure_ w with _ | M0
        · simp
        · exact absurd ⟨by simp [DirectedGraph.isMember, hbv],
            by simp [DirectedGraph.isMember, hbw]⟩ h
    rw [DirectedGraph.add_edge, if_pos hc]
  · intro hv hw
    obtain ⟨L0, hL0⟩ := Option.isSome_iff_exists.mp hv
    obtain ⟨M0, hM0⟩ := Option.isSome_iff_exists.mp hw
    have hs : (dg.add_edge v w elt).2.structure_ =
        setKey dg.structure_ v (setKey L0 w ⟨v, w, elt⟩) := by
      simp [DirectedGraph.add_edge, hL0, hM0]
    have hie : (dg.add_edge v w elt).2.inedges =
        setKey dg.inedges w (setKey ((lookupKey dg.inedges w).getD []) v ⟨v, w, elt⟩) := by
      simp [DirectedGraph.add_edge, hL0, hM0]
    refine ⟨?_, ?_, ?_⟩
    · simp [DirectedGraph.add_edge, hL0, hM0]
    · rw [hs, lookup_setKey_eq]
      simp [lookup_setKey_eq]
    · rw [hie, lookup_setKey_eq]
      simp [lookup_setKey_eq]

/-- A two-vertex undirected graph (vertices 0, 1). -/
def c7graph : Graphs.Graph := ((Graphs.Graph.empty.add_vertex).2.add_vertex).2

/-- A two-vertex directed graph (vertices 0, 1). -/
def c7dgraph : Graphs.DirectedGraph :=
  ((Graphs.DirectedGraph.empty.add_vertex).2.add_vertex).2

open Graphs in
theorem C7_add_edge_endpoints_witness :
    (Graphs.Graph.add_edge c7graph 0 5 7 = (Option.none, c7graph)) ∧
    ((Graphs.Graph.add_edge c7graph 0 1 7).1 = some ⟨0, 1, 7⟩ ∧
      (Graphs.Graph.add_edge c7graph 0 1 7).2.get_edge 0 1 = some ⟨0, 1, 7⟩ ∧
      (Graphs.Graph.add_edge c7graph 0 1 7).2.get_edge 1 0 = some ⟨0, 1, 7⟩) ∧
    (Graphs.DirectedGraph.add_edge c7dgraph 5 1 7 = (Option.none, c7dgraph)) ∧
    ((Graphs.DirectedGraph.add_edge c7dgraph 0 1 7).1 = some ⟨0, 1, 7⟩ ∧
      lookupKey ((lookupKey (Graphs.DirectedGraph.add_edge c7dgraph 0 1 7).2.structure_
        0).getD []) 1 = some ⟨0, 1, 7⟩ ∧
      lookupKey ((lookupKey (Graphs.DirectedGraph.add_edge c7dgraph 0 1 7).2.inedges
        1).getD []) 0 = some ⟨0, 1, 7⟩) :=
  ⟨(C7_add_edge_endpoints c7graph c7dgraph 0 5 7).1 (by decide),
   (C7_add_edge_endpoints c7graph c7dgraph 0 1 7).2.1 (by decide) (by decide),
   (C7_add_edge_endpoints c7graph c7dgraph 5 1 7).2.2.1 (by decide),
   (C7_add_edge_endpoints c7graph c7dgraph 0 1 7).2.2.2 (by decide) (by decide)⟩

open Graphs in
/-- C8: with both `v` and `w` members, calling `add_edge(v, w, x)` after an
earlier `add_edge(v, w, y)` replaces the existing edge rather than
duplicating it — the lookup between `v` and `w` yields the new edge — and
`num_edges()` is the same immediately before and after the second call. -/
theorem C8_add_edge_idempotent (g : Graph) (v w : Nat) (x y : Int)
    (hv : g.isMember v = true) (hw : g.isMember w = true) :
    Graph.num_edges ((g.add_edge v w y).2.add_edge v w x).2 =
      Graph.num_edges (g.add_edge v w y).2 ∧
    Graph.get_edge ((g.add_edge v w y).2.add_edge v w x).2 v w = some ⟨v, w, x⟩ := by
  obtain ⟨L, M, h1, h2, h3, h4⟩ := add_edge_lookup_both g v w y hv hw
  have hv1 : (g.add_edge v w y).2.isMember v = true := by
    rw [Graph.isMember, h1]
    rfl
  have hw1 : (g.add_edge v w y).2.isMember w = true := by
    rw [Graph.isMember, h3]
    rfl
  constructor
  · rw [Graph.num_edges, Graph.num_edges,
      add_edge_lenmap_preserved (g.add_edge v w y).2 v w x L M _ _ h1 h3 h2 h4]
  · obtain ⟨L2, M2, h5, h6, h7, h8⟩ :=
      add_edge_lookup_both (g.add_edge v w y).2 v w x hv1 hw1
    simp [Graph.get_edge, h5, h6]

open Graphs in
theorem C8_add_edge_idempotent_witness :
    c7graph.isMember 0 = true ∧ c7graph.isMember 1 = true ∧
    (Graph.num_edges ((c7graph.add_edge 0 1 9).2.add_edge 0 1 4).2 =
      Graph.num_edges (c7graph.add_edge 0 1 9).2 ∧
    Graph.get_edge ((c7graph.add_edge 0 1 9).2.add_edge 0 1 4).2 0 1 =
      some ⟨0, 1, 4⟩) :=
  ⟨by decide, by decide, C8_add_edge_idempotent c7graph 0 1 4 9 (by decide) (by decide)⟩

/-! ## Dijkstra: `graphs/Dijkstra.py`

`Dijkstra` subclasses the undirected `Graph` and adds the `dijkstra(s)`
traversal, which uses a `Heap_APQ` keyed by path cost with vertices as
payloads.  The outer `while not open.is_empty()` loop is modelled with a fuel
parameter: every iteration removes one element from `open`, and a vertex
enters `open` at most once during a run (afterwards it is in `locs` or in
`closed`, and both the insert guard and the closed guard block re-entry), so
`num_vertices + 1` iterations always suffice for a graph built by
`add_vertex`/`add_edge` and the fuel cutoff is never reached. -/

namespace Graphs

/-- The local state of one `Dijkstra.dijkstra` run.  `openq` is the APQ named
`open` in the Python code (a Lean keyword forces the rename); `locs`, `preds`
and `closed` are the three local dicts. -/
structure DState where
  openq : Heap_APQ
  locs : List (Nat × Nat)
  preds : List (Nat × Option Nat)
  closed : List (Nat × (Int × Option Nat))
deriving Repr

/-- The body of the `for e in self.get_edges(v)` loop of `dijkstra`: relax
edge `e` out of the just-closed vertex `v` with final cost `cost`. -/
def relaxEdge (v : Nat) (cost : Int) (st : DState) (e : Edge) : DState :=
  match e.opposite v with
  | Option.none => st
  | some w =>
    if (lookupKey st.closed w).isSome then st
    else
      if (lookupKey st.locs w).isSome = false then
        { st with preds := setKey st.preds w (some v),
                  openq := (st.openq.add (cost + e.element) w).2,
                  locs := setKey st.locs w (st.openq.add (cost + e.element) w).1.eid }
      else
        if cost + e.element < st.openq.get_key ((lookupKey st.locs w).getD 0) then
          { st with preds := setKey st.preds w (some v),
                    openq := st.openq.update_key ((lookupKey st.locs w).getD 0)
                      (cost + e.element) }
        else st

/-- One iteration of the outer loop of `dijkstra`: extract the minimum vertex
and its cost, finalize it into `closed`, and relax all its incident edges.
The fallback arm is unreachable because the loop guard ensures a non-empty
queue, on which `remove_min` always returns a value. -/
def dijkstraStep (g : Graph) (st : DState) : DState :=
  match st.openq.remove_min with
  | (PyResult.ok (v, cost), open1) =>
    let st1 : DState :=
      { openq := open1,
        locs := removeKey st.locs v,
        preds := removeKey st.preds v,
        closed := setKey st.closed v (cost, (lookupKey st.preds v).getD Option.none) }
    ((g.get_edges v).getD []).foldl (relaxEdge v cost) st1
  | (_, open1) => { st with openq := open1 }

/-- The initialisation of `dijkstra(s)`: `open` holds `s` with key 0, `locs`
records its handle, `preds` maps `s` to `None`, and `closed` is empty. -/
def dijkstraInit (s : Nat) : DState :=
  { openq := (Heap_APQ.empty.add 0 s).2,
    locs := [(s, (Heap_APQ.empty.add 0 s).1.eid)],
    preds := [(s, Option.none)],
    closed := [] }

/-- The outer loop of `dijkstra`, returning `closed` when `open` is empty. -/
def dijkstraRun (g : Graph) (fuel : Nat) (st : DState) :
    List (Nat × (Int × Option Nat)) :=
  if st.openq.is_empty then st.closed
  else
    match fuel with
    | 0 => st.closed
    | fuel2 + 1 => dijkstraRun g fuel2 (dijkstraStep g st)

/-- `Dijkstra.dijkstra(s)`: run the loop to completion (see the fuel remark
above) and return `closed`. -/
def dijkstra (g : Graph) (s : Nat) : List (Nat × (Int × Option Nat)) :=
  dijkstraRun g (g.num_vertices + 1) (dijkstraInit s)

/-- The state after `n` iterations of the outer loop of `dijkstra(s)`. -/
def dijkstraIter (g : Graph) (s : Nat) : Nat → DState
  | 0 => dijkstraInit s
  | n + 1 => dijkstraStep g (dijkstraIter g s n)

/-- A graph is well formed when every adjacency entry `(v, w)` holds an edge
incident on `v` whose opposite endpoint is `w` — true of every graph built
through `add_vertex`/`add_edge`, and exactly what makes `e.opposite(v)`
non-`None` inside the traversal. -/
def graphWfB (g : Graph) : Bool :=
  g.structure_.all (fun p => p.2.all (fun q => q.2.opposite p.1 = some q.1))

end Graphs

open Graphs Heap_APQ in
/-- The fixed graph of the claim: vertices `A, B, C, D` are created in that
order by `add_vertex` and therefore carry identities `0, 1, 2, 3`; the edges
`A-B:1`, `B-C:2`, `A-C:5`, `C-D:1` are added in that order. -/
def gC1 : Graphs.Graph :=
  ((((((((Graphs.Graph.empty.add_vertex).2.add_vertex).2.add_vertex).2.add_vertex).2.add_edge
    0 1 1).2.add_edge 1 2 2).2.add_edge 0 2 5).2.add_edge 2 3 1).2

open Graphs Heap_APQ in
/-- C1: on the undirected graph with vertices `A = 0`, `B = 1`, `C = 2`,
`D = 3` and edges `A-B:1`, `B-C:2`, `A-C:5`, `C-D:1`, running `dijkstra` from
`A` returns the mapping with costs `A:0, B:1, C:3, D:4` and predecessors
`None, A, B, C` respectively. -/
theorem C1_dijkstra_small_graph :
    dijkstra gC1 0 = [(0, (0, Option.none)), (1, (1, some 0)),
      (2, (3, some 1)), (3, (4, some 2))] := by
  simp [gC1, dijkstra, dijkstraRun, dijkstraStep, dijkstraInit, relaxEdge,
    Graphs.Graph.empty, Graphs.Graph.add_vertex, Graphs.Graph.add_edge,
    Graphs.Graph.get_edges, Graphs.Graph.num_vertices, Graphs.Edge.opposite,
    lookupKey, setKey, removeKey, Heap_APQ.empty, Heap_APQ.add,
    Heap_APQ.remove_min, Heap_APQ.update_key, Heap_APQ.get_key,
    Heap_APQ.is_empty, bubbleup, bubbledown, swapFix, setIndexAt, keyAt,
    minChild, findElemPos]

/-! ## Dict and heap facts feeding the traversal invariant -/

namespace Graphs

theorem lookup_removeKey_ne {α : Type} (m : List (Nat × α)) (k t : Nat)
    (h : t ≠ k) : lookupKey (removeKey m k) t = lookupKey m t := by
  induction m with
  | nil => rfl
  | cons p rest ih =>
    obtain ⟨k2, v2⟩ := p
    rw [removeKey]
    rcases eq_or_ne k2 k with rfl | hne
    · rw [if_pos rfl, lookupKey, if_neg (fun h2 => h h2.symm)]
    · rw [if_neg hne, lookupKey, lookupKey]
      rcases eq_or_ne k2 t with rfl | hne2
      · rw [if_pos rfl, if_pos rfl]
      · rw [if_neg hne2, if_neg hne2]
        exact ih

theorem mem_keys_of_lookup_isSome {α : Type} (m : List (Nat × α)) (t : Nat)
    (h : (lookupKey m t).isSome) : t ∈ m.map (fun p => p.1) := by
  induction m with
  | nil => simp [lookupKey] at h
  | cons p rest ih =>
    obtain ⟨k2, v2⟩ := p
    rw [lookupKey] at h
    rcases eq_or_ne k2 t with rfl | hne
    · simp
    · rw [if_neg hne] at h
      simp only [List.map_cons, List.mem_cons]
      exact Or.inr (ih h)

theorem lookup_removeKey_self {α : Type} (m : List (Nat × α)) (k : Nat)
    (h : (m.map (fun p => p.1)).Nodup) : lookupKey (removeKey m k) k = Option.none := by
  induction m with
  | nil => rfl
  | cons p rest ih =>
    obtain ⟨k2, v2⟩ := p
    rw [removeKey]
    simp only [List.map_cons, List.nodup_cons] at h
    rcases eq_or_ne k2 k with rfl | hne
    · rw [if_pos rfl]
      rcases hl : lookupKey rest k2 with _ | a
      · rfl
      · exact absurd (mem_keys_of_lookup_isSome rest k2 (by rw [hl]; rfl)) h.1
    · rw [if_neg hne, lookupKey, if_neg hne]
      exact ih h.2

theorem keys_removeKey_sublist {α : Type} (m : List (Nat × α)) (k : Nat) :
    ((removeKey m k).map (fun p => p.1)).Sublist (m.map (fun p => p.1)) := by
  induction m with
  | nil => simp [removeKey]
  | cons p rest ih =>
    obtain ⟨k2, v2⟩ := p
    rw [removeKey]
    rcases eq_or_ne k2 k with rfl | hne
    · rw [if_pos rfl]
      simp only [List.map_cons]
      exact List.sublist_cons_of_sublist _ (List.Sublist.refl _)
    · rw [if_neg hne]
      simp only [List.map_cons]
      exact List.Sublist.cons₂ _ ih

theorem nodup_keys_removeKey {α : Type} (m : List (Nat × α)) (k : Nat)
    (h : (m.map (fun p => p.1)).Nodup) : ((removeKey m k).map (fun p => p.1)).Nodup :=
  h.sublist (keys_removeKey_sublist m k)

theorem nodup_keys_setKey {α : Type} (m : List (Nat × α)) (k : Nat) (x : α)
    (h : (m.map (fun p => p.1)).Nodup) : ((setKey m k x).map (fun p => p.1)).Nodup := by
  induction m with
  | nil => simp [setKey]
  | cons p rest ih =>
    obtain ⟨k2, v2⟩ := p
    rw [setKey]
    simp only [List.map_cons, List.nodup_cons] at h
    rcases eq_or_ne k2 k with rfl | hne
    · rw [if_pos rfl]
      simp only [List.map_cons, List.nodup_cons]
      exact h
    · rw [if_neg hne]
      simp only [List.map_cons, List.nodup_cons]
      constructor
      · intro hmem
        rcases eq_or_ne k2 k with rfl | hne2
        · exact hne rfl
        · have : ∀ t, t ∈ (setKey rest k x).map (fun p => p.1) →
              t ∈ rest.map (fun p => p.1) ∨ t = k := by
            clear ih h hmem
            intro t ht
            induction rest with
            | nil =>
              simp [setKey] at ht
              exact Or.inr ht
            | cons p2 r2 ih2 =>
              obtain ⟨k3, v3⟩ := p2
              rw [setKey] at ht
              rcases eq_or_ne k3 k with rfl | hne3
              · rw [if_pos rfl] at ht
                simp only [List.map_cons, List.mem_cons] at ht ⊢
                rcases ht with rfl | ht
                · exact Or.inr rfl
                · exact Or.inl (Or.inr ht)
              · rw [if_neg hne3] at ht
                simp only [List.map_cons, List.mem_cons] at ht ⊢
                rcases ht with rfl | ht
                · exact Or.inl (Or.inl rfl)
                · rcases ih2 ht with h2 | h2
                  · exact Or.inl (Or.inr h2)
                  · exact Or.inr h2
          rcases this k2 hmem with h2 | h2
          · exact h.1 h2
          · exact hne h2
      · exact ih h.2

end Graphs

namespace Heap_APQ

theorem add_vals_perm (q : Heap_APQ) (k : Int) (v : Nat)
    (hs : q.size = q.body.length) :
    List.Perm ((q.add k v).2.body.map (fun e => e.value))
      (q.body.map (fun e => e.value) ++ [v]) := by
  show List.Perm ((bubbleup (q.body ++ [⟨k, v, q.size, q.nextId⟩]) q.size).map
    (fun e => e.value)) _
  have hperm := map_value_perm_of_core (map_core_bubbleup_perm
    (q.body ++ [⟨k, v, q.size, q.nextId⟩]) q.size (by simp; omega))
  refine hperm.trans ?_
  simp

theorem update_key_vals_perm (q : Heap_APQ) (t : Nat) (nk : Int) (h : WfHeap q) :
    List.Perm ((q.update_key t nk).body.map (fun e => e.value))
      (q.body.map (fun e => e.value)) := by
  obtain ⟨hs, hi, hh, hn, hb⟩ := h
  rcases hf : findElemPos q.body t with _ | pos
  · simp only [update_key, hf]
    exact List.Perm.refl _
  · have hpos : pos < q.body.length := findElemPos_lt _ _ _ hf
    have hidxe : (q.body.getD pos default).index = pos := hi pos hpos
    simp only [update_key, hf, hidxe]
    have h1 : ((q.body.set pos
        ⟨nk, (q.body.getD pos default).value, pos, (q.body.getD pos default).eid⟩).map
        (fun e => e.value)) = q.body.map (fun e => e.value) :=
      map_value_set_of_value q.body pos _ hpos rfl
    have hlen1 : (q.body.set pos
        ⟨nk, (q.body.getD pos default).value, pos, (q.body.getD pos default).eid⟩).length =
        q.body.length := by simp
    have hup := map_value_perm_of_core (map_core_bubbleup_perm
      (q.body.set pos ⟨nk, (q.body.getD pos default).value, pos,
        (q.body.getD pos default).eid⟩) pos (by omega))
    have hdown := map_value_perm_of_core (map_core_bubbledown_perm
      (bubbleup (q.body.set pos ⟨nk, (q.body.getD pos default).value, pos,
        (q.body.getD pos default).eid⟩) pos)
      (match findElemPos (bubbleup (q.body.set pos ⟨nk, (q.body.getD pos default).value,
        pos, (q.body.getD pos default).eid⟩) pos) t with
        | some pos2 => ((bubbleup (q.body.set pos ⟨nk, (q.body.getD pos default).value,
            pos, (q.body.getD pos default).eid⟩) pos).getD pos2 default).index
        | Option.none => 0)
      (q.size - 1) (by rw [length_bubbleup]; omega))
    exact (hdown.trans hup).trans (by rw [h1])

theorem getD_last_cons_dropLast_perm {α : Type} [Inhabited α] (V : List α)
    (h : V ≠ []) :
    List.Perm (V.getD (V.length - 1) default :: V.dropLast) V := by
  have hget : V.getD (V.length - 1) default = V.getLast h := by
    rw [List.getLast_eq_get V h, List.getD_eq_get]
  rw [hget]
  refine ((List.perm_append_singleton _ _).symm).trans ?_
  rw [List.dropLast_concat_getLast h]

theorem remove_min_spec (q : Heap_APQ) (e : Element) (rest : List Element)
    (hs : q.size = q.body.length) (hbody : q.body = e :: rest) :
    (q.remove_min).1 = PyResult.ok (e.value, e.key) ∧
    List.Perm ((q.remove_min).2.body.map (fun x => x.value))
      (rest.map (fun x => x.value)) := by
  have hlen : q.body.length = rest.length + 1 := by rw [hbody]; rfl
  have hsz : q.size = rest.length + 1 := by omega
  have hne : q.size ≠ 0 := by omega
  have hget0 : q.body.getD 0 default = e := by rw [hbody]; rfl
  by_cases hrestnil : rest = []
  · have h1 : q.size - 1 = 0 := by
      rw [hrestnil] at hsz
      simp at hsz
      omega
    have hempty : ((q.body.set 0 (q.body.getD (q.size - 1) default)).dropLast) = [] := by
      apply List.length_eq_zero.mp
      simp
      omega
    simp only [remove_min, if_neg hne]
    rw [if_pos h1]
    refine ⟨by rw [hget0], ?_⟩
    rw [hempty, hrestnil]
  · have hr1 : 1 ≤ rest.length := by
      rcases rest with _ | ⟨a, r⟩
      · exact absurd rfl hrestnil
      · simp
    have h1 : q.size - 1 ≠ 0 := by omega
    simp only [remove_min, if_neg hne, if_neg h1, hget0]
    refine ⟨by trivial, ?_⟩
    have hb1 : (q.body.set 0 (q.body.getD (q.size - 1) default)).dropLast =
        (q.body.getD (q.size - 1) default) :: rest.dropLast := by
      rw [dropLast_set, hbody, List.dropLast_cons_of_ne_nil hrestnil, List.set_cons_zero]
    have hgetlast : q.body.getD (q.size - 1) default =
        rest.getD (rest.length - 1) default := by
      rw [hbody]
      have h2 : q.size - 1 = (rest.length - 1) + 1 := by omega
      rw [h2]
      rfl
    have hperm := map_value_perm_of_core (map_core_bubbledown_perm
      (setIndexAt ((q.body.set 0 (q.body.getD (q.size - 1) default)).dropLast) 0 0)
      0 (q.size - 1 - 1) (by simp; omega))
    refine hperm.trans ?_
    have hcore := map_value_eq_of_core_eq (map_core_setIndexAt
      ((q.body.set 0 (q.body.getD (q.size - 1) default)).dropLast) 0 0
      (by simp; omega))
    rw [hcore, hb1, hgetlast]
    simp only [List.map_cons]
    have hVne : rest.map (fun x => x.value) ≠ [] := by
      simp [hrestnil]
    have hx : (rest.getD (rest.length - 1) default).value =
        (rest.map (fun x => x.value)).getD
          ((rest.map (fun x => x.value)).length - 1) default := by
      rw [List.length_map]
      exact (List.getD_map rest default (fun x => x.value)).symm
    rw [hx, List.map_dropLast]
    exact getD_last_cons_dropLast_perm (rest.map (fun x => x.value)) hVne

end Heap_APQ

namespace Graphs

/-- The vertices currently stored in the open queue. -/
def openVals (st : DState) : List Nat := st.openq.body.map (fun e => e.value)

/-- The invariant of every reachable traversal state: the open queue is a
well-formed heap, its vertices are pairwise distinct, every open vertex has a
handle in `locs`, no vertex with a live handle is closed, and the `locs` keys
are distinct. -/
structure DInv (st : DState) : Prop where
  hwf : Heap_APQ.WfHeap st.openq
  hnodup : (openVals st).Nodup
  hlocs : ∀ x ∈ openVals st, (lookupKey st.locs x).isSome
  hdisj : ∀ x, (lookupKey st.locs x).isSome → lookupKey st.closed x = Option.none
  hkeys : (st.locs.map (fun p => p.1)).Nodup

theorem dijkstraInit_openq (s : Nat) :
    (dijkstraInit s).openq = ⟨[⟨0, s, 0, 0⟩], 1, 1⟩ := by
  show (⟨Heap_APQ.bubbleup ([] ++ [⟨0, s, 0, 0⟩]) 0, 1, 1⟩ : Heap_APQ) = _
  rw [Heap_APQ.bubbleup_eq_of_not _ _ (by simp)]
  rfl

theorem dinv_init (s : Nat) : DInv (dijkstraInit s) := by
  refine ⟨Heap_APQ.wf_add Heap_APQ.empty 0 s Heap_APQ.wf_empty, ?_, ?_, ?_, ?_⟩
  · show (((dijkstraInit s).openq.body).map (fun e => e.value)).Nodup
    rw [dijkstraInit_openq]
    simp
  · intro x hx
    rw [openVals, dijkstraInit_openq] at hx
    simp at hx
    subst hx
    simp [dijkstraInit, lookupKey]
  · intro x hx
    rfl
  · simp [dijkstraInit]

theorem relax_closed_eq (v : Nat) (cost : Int) (st : DState) (e : Edge) :
    (relaxEdge v cost st e).closed = st.closed := by
  rcases ho : e.opposite v with _ | w <;> simp only [relaxEdge, ho]
  split
  · rfl
  · split
    · rfl
    · split <;> rfl

theorem foldl_relax_closed (v : Nat) (cost : Int) (es : List Edge) :
    ∀ st : DState, ((es.foldl (relaxEdge v cost) st)).closed = st.closed := by
  induction es with
  | nil => intro st; rfl
  | cons e rest ih =>
    intro st
    rw [List.foldl_cons, ih, relax_closed_eq]

theorem dinv_relax (v : Nat) (cost : Int) (st : DState) (e : Edge) (h : DInv st) :
    DInv (relaxEdge v cost st e) := by
  obtain ⟨hwf, hnd, hlo, hdi, hke⟩ := h
  rcases ho : e.opposite v with _ | w
  · simp only [relaxEdge, ho]
    exact ⟨hwf, hnd, hlo, hdi, hke⟩
  · simp only [relaxEdge, ho]
    split
    · exact ⟨hwf, hnd, hlo, hdi, hke⟩
    · next hcl =>
      split
      · next hlw =>
        have hwmem : w ∉ openVals st := by
          intro hmem
          rw [hlo w hmem] at hlw
          cases hlw
        have hvals : List.Perm (openVals { st with
            preds := setKey st.preds w (some v),
            openq := (st.openq.add (cost + e.element) w).2,
            locs := setKey st.locs w (st.openq.add (cost + e.element) w).1.eid })
            (openVals st ++ [w]) :=
          Heap_APQ.add_vals_perm st.openq (cost + e.element) w hwf.hsize
        refine ⟨Heap_APQ.wf_add st.openq _ w hwf, ?_, ?_, ?_, ?_⟩
        · rw [hvals.nodup_iff, List.nodup_append]
          exact ⟨hnd, List.nodup_singleton _, by
            intro x hx hx2
            simp at hx2
            subst hx2
            exact hwmem hx⟩
        · intro x hx
          have hx2 := hvals.mem_iff.mp hx
          rcases List.mem_append.mp hx2 with h2 | h2
          · exact isSome_setKey _ _ _ _ (hlo x h2)
          · simp at h2
            subst h2
            show (lookupKey (setKey st.locs x _) x).isSome
            rw [lookup_setKey_eq]
            rfl
        · intro x hx
          show lookupKey st.closed x = Option.none
          rcases eq_or_ne x w with rfl | hxw
          · rcases hc2 : lookupKey st.closed x with _ | c
            · rfl
            · rw [hc2] at hcl
              exact absurd rfl hcl
          · rw [lookup_setKey_ne _ _ _ _ hxw] at hx
            exact hdi x hx
        · exact nodup_keys_setKey _ _ _ hke
      · split
        · next hkey =>
          have hvals : List.Perm (openVals { st with
              preds := setKey st.preds w (some v),
              openq := st.openq.update_key ((lookupKey st.locs w).getD 0)
                (cost + e.element) }) (openVals st) :=
            Heap_APQ.update_key_vals_perm st.openq _ _ hwf
          refine ⟨Heap_APQ.wf_update_key st.openq _ _ hwf, ?_, ?_, ?_, ?_⟩
          · rw [hvals.nodup_iff]
            exact hnd
          · intro x hx
            exact hlo x (hvals.mem_iff.mp hx)
          · intro x hx
            exact hdi x hx
          · exact hke
        · exact ⟨hwf, hnd, hlo, hdi, hke⟩

theorem dinv_foldl (v : Nat) (cost : Int) (es : List Edge) :
    ∀ st : DState, DInv st → DInv (es.foldl (relaxEdge v cost) st) := by
  induction es with
  | nil => intro st h; exact h
  | cons e rest ih =>
    intro st h
    rw [List.foldl_cons]
    exact ih _ (dinv_relax v cost st e h)

theorem dinv_step (g : Graph) (st : DState) (h : DInv st) : DInv (dijkstraStep g st) := by
  obtain ⟨hwf, hnd, hlo, hdi, hke⟩ := h
  rcases hbody : st.openq.body with _ | ⟨e, rest⟩
  · have hsz : st.openq.size = 0 := by rw [hwf.hsize, hbody]; rfl
    have hrm : st.openq.remove_min = (PyResult.none, st.openq) := by
      rw [Heap_APQ.remove_min, if_pos hsz]
    simp only [dijkstraStep, hrm]
    exact ⟨hwf, hnd, hlo, hdi, hke⟩
  · have hspec := Heap_APQ.remove_min_spec st.openq e rest hwf.hsize hbody
    set q2 := (st.openq.remove_min).2 with hq2
    have hrm : st.openq.remove_min = (PyResult.ok (e.value, e.key), q2) := by
      rw [← hspec.1, hq2]
    have hvalsq2 : List.Perm (q2.body.map (fun x => x.value))
        (rest.map (fun x => x.value)) := hspec.2
    have hehead : e.value ∈ openVals st := by
      rw [openVals, hbody]
      simp
    have hcons : openVals st = e.value :: rest.map (fun x => x.value) := by
      rw [openVals, hbody]
      rfl
    simp only [dijkstraStep, hrm]
    apply dinv_foldl
    have hndrest : (rest.map (fun x => x.value)).Nodup := by
      rw [hcons] at hnd
      exact (List.nodup_cons.mp hnd).2
    have hemem : e.value ∉ rest.map (fun x => x.value) := by
      rw [hcons] at hnd
      exact (List.nodup_cons.mp hnd).1
    refine ⟨Heap_APQ.wf_remove_min st.openq hwf, ?_, ?_, ?_, ?_⟩
    · show (q2.body.map (fun x => x.value)).Nodup
      rw [hvalsq2.nodup_iff]
      exact hndrest
    · intro x hx
      have hx2 := hvalsq2.mem_iff.mp hx
      have hxv : x ≠ e.value := fun h2 => hemem (h2 ▸ hx2)
      show (lookupKey (removeKey st.locs e.value) x).isSome
      rw [lookup_removeKey_ne _ _ _ hxv]
      exact hlo x (by rw [hcons]; exact List.mem_cons_of_mem _ hx2)
    · intro x hx
      show lookupKey (setKey st.closed e.value _) x = Option.none
      rcases eq_or_ne x e.value with rfl | hxv
      · rw [lookup_removeKey_self _ _ hke] at hx
        cases hx
      · rw [lookup_setKey_ne _ _ _ _ hxv]
        rw [lookup_removeKey_ne _ _ _ hxv] at hx
        exact hdi x hx
    · exact nodup_keys_removeKey _ _ hke

theorem closed_step_preserves (g : Graph) (st : DState) (x : Nat)
    (y : Int × Option Nat) (h : DInv st) (hl : lookupKey st.closed x = some y) :
    lookupKey (dijkstraStep g st).closed x = some y := by
  rcases hbody : st.openq.body with _ | ⟨e, rest⟩
  · have hsz : st.openq.size = 0 := by rw [h.hwf.hsize, hbody]; rfl
    have hrm : st.openq.remove_min = (PyResult.none, st.openq) := by
      rw [Heap_APQ.remove_min, if_pos hsz]
    simp only [dijkstraStep, hrm]
    exact hl
  · have hspec := Heap_APQ.remove_min_spec st.openq e rest h.hwf.hsize hbody
    set q2 := (st.openq.remove_min).2 with hq2
    have hrm : st.openq.remove_min = (PyResult.ok (e.value, e.key), q2) := by
      rw [← hspec.1, hq2]
    simp only [dijkstraStep, hrm]
    rw [foldl_relax_closed]
    show lookupKey (setKey st.closed e.value _) x = some y
    have hehead : e.value ∈ openVals st := by
      rw [openVals, hbody]
      simp
    have hclosede : lookupKey st.closed e.value = Option.none :=
      h.hdisj e.value (h.hlocs e.value hehead)
    have hxv : x ≠ e.value := by
      intro h2
      rw [h2, hclosede] at hl
      cases hl
    rw [lookup_setKey_ne _ _ _ _ hxv]
    exact hl

theorem dinv_iter (g : Graph) (s : Nat) (n : Nat) : DInv (dijkstraIter g s n) := by
  induction n with
  | zero => exact dinv_init s
  | succ m ih => exact dinv_step g _ ih

theorem run_closed_mono (g : Graph) (fuel : Nat) :
    ∀ (st : DState) (x : Nat) (y : Int × Option Nat), DInv st →
      lookupKey st.closed x = some y →
      lookupKey (dijkstraRun g fuel st) x = some y := by
  induction fuel with
  | zero =>
    intro st x y hd hl
    rw [dijkstraRun]
    split
    · exact hl
    · exact hl
  | succ f ih =>
    intro st x y hd hl
    rw [dijkstraRun]
    split
    · exact hl
    · exact ih _ x y (dinv_step g st hd) (closed_step_preserves g st x y hd hl)

end Graphs

open Graphs in
/-- C9: during every run of `dijkstra(s)` each vertex moves monotonically
through unseen, open, closed.  At every reachable state of the outer loop
(a) every `(cost, predecessor)` entry already recorded in `closed` survives
the next iteration unchanged, and (b) no vertex recorded in `closed` is
present in the open queue, so a closed vertex is never re-inserted into
`open` and its entry is never modified for the rest of the run. -/
theorem C9_closed_monotone (g : Graph) (s n : Nat) (hwfg : graphWfB g = true) :
    (∀ x c p, lookupKey (dijkstraIter g s n).closed x = some (c, p) →
      lookupKey (dijkstraIter g s (n + 1)).closed x = some (c, p)) ∧
    (∀ x, (lookupKey (dijkstraIter g s n).closed x).isSome = true →
      x ∉ (dijkstraIter g s n).openq.body.map (fun e => e.value)) := by
  constructor
  · intro x c p h
    exact closed_step_preserves g (dijkstraIter g s n) x (c, p) (dinv_iter g s n) h
  · intro x hx hmem
    have hd := dinv_iter g s n
    have h2 := hd.hdisj x (hd.hlocs x hmem)
    rw [h2] at hx
    cases hx

open Graphs in
theorem C9_closed_monotone_witness :
    graphWfB gC1 = true ∧
    ((∀ x c p, lookupKey (dijkstraIter gC1 0 1).closed x = some (c, p) →
      lookupKey (dijkstraIter gC1 0 2).closed x = some (c, p)) ∧
    (∀ x, (lookupKey (dijkstraIter gC1 0 1).closed x).isSome = true →
      x ∉ (dijkstraIter gC1 0 1).openq.body.map (fun e => e.value))) :=
  ⟨by decide, C9_closed_monotone gC1 0 1 (by decide)⟩

open Graphs in
/-- C10: for every well-formed graph and member vertex `s`, `dijkstra(s)`
returns a mapping containing `s` with cost 0 and predecessor `None`; if `s`
has no incident edges the result is exactly the single entry
`s -> (0, None)`. -/
theorem C10_source_entry (g : Graph) (s : Nat) (hwfg : graphWfB g = true)
    (hs : g.isMember s = true) :
    lookupKey (dijkstra g s) s = some (0, Option.none) ∧
    (g.get_edges s = some [] → dijkstra g s = [(s, (0, Option.none))]) := by
  have hrm : (dijkstraInit s).openq.remove_min = (PyResult.ok (s, 0), ⟨[], 0, 1⟩) := by
    rw [dijkstraInit_openq]
    rfl
  have hstep : dijkstraStep g (dijkstraInit s) =
      ((g.get_edges s).getD []).foldl (relaxEdge s 0)
        ⟨⟨[], 0, 1⟩, [], [], [(s, (0, Option.none))]⟩ := by
    simp only [dijkstraStep]
    rw [hrm]
    simp [dijkstraInit, removeKey, lookupKey, setKey]
  have hne2 : ¬((dijkstraInit s).openq.is_empty = true) := by
    rw [dijkstraInit_openq]
    simp [Heap_APQ.is_empty]
  have hrun : dijkstra g s =
      dijkstraRun g g.num_vertices (dijkstraStep g (dijkstraInit s)) := by
    show dijkstraRun g (g.num_vertices + 1) (dijkstraInit s) = _
    conv_lhs => rw [dijkstraRun.eq_def]
    rw [if_neg hne2]
  constructor
  · have hlook : lookupKey (dijkstraStep g (dijkstraInit s)).closed s =
        some (0, Option.none) := by
      rw [hstep, foldl_relax_closed]
      show lookupKey [(s, (0, Option.none))] s = _
      simp [lookupKey]
    rw [hrun]
    exact run_closed_mono g g.num_vertices (dijkstraStep g (dijkstraInit s)) s
      (0, Option.none) (dinv_step g _ (dinv_init s)) hlook
  · intro hes
    have hstep2 : dijkstraStep g (dijkstraInit s) =
        ⟨⟨[], 0, 1⟩, [], [], [(s, (0, Option.none))]⟩ := by
      rw [hstep, hes]
      rfl
    have hemp : (DState.mk ⟨[], 0, 1⟩ [] [] [(s, (0, Option.none))]).openq.is_empty =
        true := rfl
    rw [hrun, hstep2]
    conv_lhs => rw [dijkstraRun.eq_def]
    rw [if_pos hemp]

/-- A graph with a single vertex 0 and no edges. -/
def c10graph : Graphs.Graph := (Graphs.Graph.empty.add_vertex).2

open Graphs in
theorem C10_source_entry_witness :
    graphWfB c10graph = true ∧ c10graph.isMember 0 = true ∧
    (lookupKey (dijkstra c10graph 0) 0 = some (0, Option.none) ∧
    (c10graph.get_edges 0 = some [] → dijkstra c10graph 0 = [(0, (0, Option.none))])) :=
  ⟨by decide, by decide, C10_source_entry c10graph 0 (by decide) (by decide)⟩
